import Mathlib

/-!
# Verification of vroom's insertion heuristics and cross-exchange operator

Shallow embedding of `src/algorithms/heuristics/solomon.cpp` and
`src/problems/cvrp/operators/cross_exchange.cpp` (vroom, 2019 snapshot).

Conventions:
* `Amount` (fixed-dimension vector of non-negative integers) is `List Nat`.
* Matrix costs are `Nat` (spec §6: non-negative integers); gains are `Int`
  (`Gain` is a signed integer type in the source); machine-width overflow is
  not modelled, arithmetic is exact.
* Job ranks, vehicle ranks, route positions are `Nat`.
* `RawRoute` / `TWRoute` feasibility predicates
  (`is_valid_addition_for_capacity*`, `is_valid_addition_for_tw`) live in
  route-state files that are not part of the two sources; they are pure
  queries (spec §4.1) and are modelled as opaque boolean-valued parameters of
  the embedding, so every theorem holds for each instantiation.
-/

namespace Vroom

/-- Modelled from the spec (§3, Amount): componentwise `≤` on amount vectors,
false when dimensions differ (the source asserts equal dimensions). -/
def amountLe : List Nat → List Nat → Bool
  | [], [] => true
  | x :: xs, y :: ys => decide (x ≤ y) && amountLe xs ys
  | _, _ => false

/-- Modelled from the spec (§3, Amount): some component strictly smaller. -/
def amountLtSome : List Nat → List Nat → Bool
  | x :: xs, y :: ys => decide (x < y) || amountLtSome xs ys
  | _, _ => false

/-- Modelled from the spec (§3, Amount): the strict partial order `a << b`,
"a is componentwise ≤ b and strictly < in at least one component". -/
def amountLt (a b : List Nat) : Bool :=
  amountLe a b && amountLtSome a b

/-- Problem environment consumed by the heuristics of `solomon.cpp`.
Vehicles and jobs are given by rank-indexed accessor functions; the
`RawRoute`/`TWRoute` feasibility queries (whose implementations are outside
the two source files; they are pure per spec §4.1) are opaque parameters:
`validCapacityAdd v route j pos` stands for
`routes[v].is_valid_addition_for_capacity(input, jobs[j].pickup,
jobs[j].delivery, pos)` on a route currently holding `route`, and
`validTWAdd` for `is_valid_addition_for_tw`. -/
structure HEnv where
  numVehicles : Nat
  numJobs : Nat
  capacity : Nat → List Nat
  twLength : Nat → Nat
  hasStart : Nat → Bool
  startIdx : Nat → Nat
  hasEnd : Nat → Bool
  endIdx : Nat → Nat
  jobIndex : Nat → Nat
  jobPickup : Nat → List Nat
  jobDelivery : Nat → List Nat
  jobDeadline : Nat → Nat
  zeroAmount : List Nat
  matrix : Nat → Nat → Nat
  vehicleOk : Nat → Nat → Bool
  validCapacityAdd : Nat → List Nat → Nat → Nat → Bool
  validTWAdd : Nat → List Nat → Nat → Nat → Bool

/-- The vehicle-ordering comparator of `basic` (solomon.cpp lines 41-47):
`lhs` precedes `rhs` iff `rhs.capacity << lhs.capacity`, or the capacities
are equal and `lhs.tw.length > rhs.tw.length`. -/
def vehBefore (env : HEnv) (lhs rhs : Nat) : Bool :=
  amountLt (env.capacity rhs) (env.capacity lhs) ||
    (decide (env.capacity lhs = env.capacity rhs) &&
      decide (env.twLength rhs < env.twLength lhs))

/-- One step of a stable insertion sort: place `x` before the first element
it strictly precedes under `cmp`, after everything else. -/
def insertStable {α : Type} (cmp : α → α → Bool) (x : α) : List α → List α
  | [] => [x]
  | y :: ys => if cmp x y then x :: y :: ys else y :: insertStable cmp x ys

/-- Model of `std::stable_sort` (solomon.cpp line 39) as a stable insertion
sort, processing the input left to right.  For a strict-weak-ordering
comparator this agrees with every conforming `std::stable_sort`; the
comparator `vehBefore` is only a strict partial order, for which the C++
standard leaves the behaviour unspecified, and this model matches the
insertion sort libstdc++ uses on small ranges. -/
def stableSortModel {α : Type} (cmp : α → α → Bool) (l : List α) : List α :=
  l.foldl (fun acc x => insertStable cmp x acc) []

/-- The vehicle processing order of `basic`: ranks `0..numVehicles-1`
stably sorted under `vehBefore`. -/
def basicVehicleOrder (env : HEnv) : List Nat :=
  stableSortModel (vehBefore env) (List.range env.numVehicles)

theorem insertStable_perm {α : Type} (cmp : α → α → Bool) (x : α) :
    ∀ l : List α, (insertStable cmp x l).Perm (x :: l) := by
  intro l
  induction l with
  | nil => rfl
  | cons y ys ih =>
    by_cases h : cmp x y = true
    · simp [insertStable, h]
    · rw [Bool.not_eq_true] at h
      simp only [insertStable, h, Bool.false_eq_true, if_false]
      exact (ih.cons y).trans (List.Perm.swap x y ys)

theorem stableSortModel_perm {α : Type} (cmp : α → α → Bool) (l : List α) :
    (stableSortModel cmp l).Perm l := by
  suffices h : ∀ acc : List α,
      (l.foldl (fun acc x => insertStable cmp x acc) acc).Perm (acc ++ l) by
    simpa using h []
  induction l with
  | nil => intro acc; simp
  | cons y ys ih =>
    intro acc
    simp only [List.foldl_cons]
    refine (ih (insertStable cmp y acc)).trans ?_
    have h₁ : (insertStable cmp y acc ++ ys).Perm ((y :: acc) ++ ys) :=
      (insertStable_perm cmp y acc).append_right ys
    refine h₁.trans ?_
    simp only [List.cons_append]
    exact (List.perm_middle).symm

/-- Componentwise sum of two amounts (`Amount::operator+`, equal dimensions
asserted in the source). -/
def amountAdd (a b : List Nat) : List Nat :=
  List.zipWith (fun x y => x + y) a b

/-- Read-only context of a `CrossExchange` candidate: the input data reachable
from `_input`, the constructor arguments `s_rank`/`t_rank`, the
`_sol_state.edge_costs_around_edge` rows of the two vehicles, and the
`RawRoute` capacity queries of the two routes as opaque parameters
(`sMargins p d first last` stands for
`source.is_valid_addition_for_capacity_margins(_input, p, d, first, last)`,
`sInclusion d seg first last` for
`source.is_valid_addition_for_capacity_inclusion(_input, d, seg, first, last)`
with `seg` the job ranks the iterator pair yields, in order; likewise
`tMargins`/`tInclusion` for `target`). -/
structure XCtx where
  matrix : Nat → Nat → Nat
  jobIndex : Nat → Nat
  jobPickup : Nat → List Nat
  jobDelivery : Nat → List Nat
  sHasStart : Bool
  sStart : Nat
  sHasEnd : Bool
  sEnd : Nat
  tHasStart : Bool
  tStart : Nat
  tHasEnd : Bool
  tEnd : Nat
  sRank : Nat
  tRank : Nat
  edgeCostsS : Nat → Int
  edgeCostsT : Nat → Int
  sVehicleOk : Nat → Bool
  tVehicleOk : Nat → Bool
  sMargins : List Nat → List Nat → Nat → Nat → Bool
  sInclusion : List Nat → List Nat → Nat → Nat → Bool
  tMargins : List Nat → List Nat → Nat → Nat → Bool
  tInclusion : List Nat → List Nat → Nat → Nat → Bool

/-- Mutable state of a `CrossExchange` candidate: the two borrowed routes
and the operator-internal fields. -/
structure XState where
  sRoute : List Nat
  tRoute : List Nat
  normalSGain : Int
  reversedSGain : Int
  normalTGain : Int
  reversedTGain : Int
  gainUpperBoundComputed : Bool
  reverseSEdge : Bool
  reverseTEdge : Bool
  sIsNormalValid : Bool
  sIsReverseValid : Bool
  tIsNormalValid : Bool
  tIsReverseValid : Bool
  storedGain : Int
  gainComputed : Bool

/-- State after the `CrossExchange` constructor (lines 31-37): all flags
false; `stored_gain`/`gain_computed` are zero-initialised in the `Operator`
base class (outside the two source files; spec §4.5: `compute_gain` commits
the gain into `stored_gain`); the four sub-gain fields are set by
`gain_upper_bound` before any use and start at 0 here. -/
def mkXState (s t : List Nat) : XState where
  sRoute := s
  tRoute := t
  normalSGain := 0
  reversedSGain := 0
  normalTGain := 0
  reversedTGain := 0
  gainUpperBoundComputed := false
  reverseSEdge := false
  reverseTEdge := false
  sIsNormalValid := false
  sIsReverseValid := false
  tIsNormalValid := false
  tIsReverseValid := false
  storedGain := 0
  gainComputed := false

/-- Translation of `CrossExchange::gain_upper_bound` (lines 45-145): computes the four
orientation sub-gains from the `edge_costs_around_edge` cache and the
matrix, stores them, and returns
`max(normal_s, reversed_s) + max(normal_t, reversed_t)`. -/
def gainUpperBound (ctx : XCtx) (st : XState) : Int × XState :=
  let m := ctx.matrix
  let sIndex := ctx.jobIndex (st.sRoute.getD ctx.sRank 0)
  let sAfterIndex := ctx.jobIndex (st.sRoute.getD (ctx.sRank + 1) 0)
  let tIndex := ctx.jobIndex (st.tRoute.getD ctx.tRank 0)
  let tAfterIndex := ctx.jobIndex (st.tRoute.getD (ctx.tRank + 1) 0)
  let previousCost : Int :=
    if ctx.sRank = 0 then
      if ctx.sHasStart then (m ctx.sStart tIndex : Int) else 0
    else (m (ctx.jobIndex (st.sRoute.getD (ctx.sRank - 1) 0)) tIndex : Int)
  let reversePreviousCost : Int :=
    if ctx.sRank = 0 then
      if ctx.sHasStart then (m ctx.sStart tAfterIndex : Int) else 0
    else (m (ctx.jobIndex (st.sRoute.getD (ctx.sRank - 1) 0)) tAfterIndex : Int)
  let nextCost : Int :=
    if ctx.sRank = st.sRoute.length - 2 then
      if ctx.sHasEnd then (m tAfterIndex ctx.sEnd : Int) else 0
    else (m tAfterIndex (ctx.jobIndex (st.sRoute.getD (ctx.sRank + 2) 0)) : Int)
  let reverseNextCost : Int :=
    if ctx.sRank = st.sRoute.length - 2 then
      if ctx.sHasEnd then (m tIndex ctx.sEnd : Int) else 0
    else (m tIndex (ctx.jobIndex (st.sRoute.getD (ctx.sRank + 2) 0)) : Int)
  let normalSGain := ctx.edgeCostsS ctx.sRank - previousCost - nextCost
  let reverseEdgeCost : Int := (m tIndex tAfterIndex : Int) - (m tAfterIndex tIndex : Int)
  let reversedSGain :=
    ctx.edgeCostsS ctx.sRank + reverseEdgeCost - reversePreviousCost - reverseNextCost
  let previousCostT : Int :=
    if ctx.tRank = 0 then
      if ctx.tHasStart then (m ctx.tStart sIndex : Int) else 0
    else (m (ctx.jobIndex (st.tRoute.getD (ctx.tRank - 1) 0)) sIndex : Int)
  let reversePreviousCostT : Int :=
    if ctx.tRank = 0 then
      if ctx.tHasStart then (m ctx.tStart sAfterIndex : Int) else 0
    else (m (ctx.jobIndex (st.tRoute.getD (ctx.tRank - 1) 0)) sAfterIndex : Int)
  let nextCostT : Int :=
    if ctx.tRank = st.tRoute.length - 2 then
      if ctx.tHasEnd then (m sAfterIndex ctx.tEnd : Int) else 0
    else (m sAfterIndex (ctx.jobIndex (st.tRoute.getD (ctx.tRank + 2) 0)) : Int)
  let reverseNextCostT : Int :=
    if ctx.tRank = st.tRoute.length - 2 then
      if ctx.tHasEnd then (m sIndex ctx.tEnd : Int) else 0
    else (m sIndex (ctx.jobIndex (st.tRoute.getD (ctx.tRank + 2) 0)) : Int)
  let normalTGain := ctx.edgeCostsT ctx.tRank - previousCostT - nextCostT
  let reverseEdgeCostT : Int := (m sIndex sAfterIndex : Int) - (m sAfterIndex sIndex : Int)
  let reversedTGain :=
    ctx.edgeCostsT ctx.tRank + reverseEdgeCostT - reversePreviousCostT - reverseNextCostT
  (max normalSGain reversedSGain + max normalTGain reversedTGain,
    { st with
      normalSGain := normalSGain
      reversedSGain := reversedSGain
      normalTGain := normalTGain
      reversedTGain := reversedTGain
      gainUpperBoundComputed := true })

/-- Translation of `CrossExchange::is_valid` (lines 190-270): skill compatibility of the
four exchanged jobs, capacity margins at both sites, then the four
orientation inclusion checks, recorded in the flags; the flag blocks run
only while `valid` still holds, exactly as in the source. -/
def isValidX (ctx : XCtx) (st : XState) : Bool × XState :=
  let sCur := st.sRoute.getD ctx.sRank 0
  let tCur := st.tRoute.getD ctx.tRank 0
  let sAfter := st.sRoute.getD (ctx.sRank + 1) 0
  let tAfter := st.tRoute.getD (ctx.tRank + 1) 0
  let compat := ctx.tVehicleOk sCur && ctx.tVehicleOk sAfter &&
    ctx.sVehicleOk tCur && ctx.sVehicleOk tAfter
  let targetPickup := amountAdd (ctx.jobPickup tCur) (ctx.jobPickup tAfter)
  let targetDelivery := amountAdd (ctx.jobDelivery tCur) (ctx.jobDelivery tAfter)
  let valid0 := compat &&
    ctx.sMargins targetPickup targetDelivery ctx.sRank (ctx.sRank + 2)
  let st1 :=
    if valid0 then
      { st with
        sIsNormalValid :=
          ctx.sInclusion targetDelivery [tCur, tAfter] ctx.sRank (ctx.sRank + 2)
        sIsReverseValid :=
          ctx.sInclusion targetDelivery [tAfter, tCur] ctx.sRank (ctx.sRank + 2) }
    else st
  let valid1 := if valid0 then st1.sIsNormalValid || st1.sIsReverseValid else valid0
  let sourcePickup := amountAdd (ctx.jobPickup sCur) (ctx.jobPickup sAfter)
  let sourceDelivery := amountAdd (ctx.jobDelivery sCur) (ctx.jobDelivery sAfter)
  let valid2 := valid1 &&
    ctx.tMargins sourcePickup sourceDelivery ctx.tRank (ctx.tRank + 2)
  let st2 :=
    if valid2 then
      { st1 with
        tIsNormalValid :=
          ctx.tInclusion sourceDelivery [sCur, sAfter] ctx.tRank (ctx.tRank + 2)
        tIsReverseValid :=
          ctx.tInclusion sourceDelivery [sAfter, sCur] ctx.tRank (ctx.tRank + 2) }
    else st1
  let valid3 := if valid2 then st2.tIsNormalValid || st2.tIsReverseValid else valid2
  (valid3, st2)

/-- Translation of `CrossExchange::compute_gain` (lines 147-188): on each side prefer the
orientation with the larger stored sub-gain if its validity flag is set,
otherwise fall back to the other one; accumulate into `stored_gain` and set
the reversal flags. -/
def computeGain (st : XState) : XState :=
  let st1 :=
    if st.normalSGain < st.reversedSGain then
      if st.sIsReverseValid then
        { st with storedGain := st.storedGain + st.reversedSGain, reverseTEdge := true }
      else
        { st with storedGain := st.storedGain + st.normalSGain }
    else
      if st.sIsNormalValid then
        { st with storedGain := st.storedGain + st.normalSGain }
      else
        { st with storedGain := st.storedGain + st.reversedSGain, reverseTEdge := true }
  let st2 :=
    if st1.normalTGain < st1.reversedTGain then
      if st1.tIsReverseValid then
        { st1 with storedGain := st1.storedGain + st1.reversedTGain, reverseSEdge := true }
      else
        { st1 with storedGain := st1.storedGain + st1.normalTGain }
    else
      if st1.tIsNormalValid then
        { st1 with storedGain := st1.storedGain + st1.normalTGain }
      else
        { st1 with storedGain := st1.storedGain + st1.reversedTGain, reverseSEdge := true }
  { st2 with gainComputed := true }

/-- Translation of `CrossExchange::apply` (lines 272-282): swap `s_route[s_rank]` with
`t_route[t_rank]` and `s_route[s_rank+1]` with `t_route[t_rank+1]`, then
reverse the two target-route positions if `reverse_s_edge` and the two
source-route positions if `reverse_t_edge`. -/
def applyX (ctx : XCtx) (st : XState) : XState :=
  let a := st.sRoute.getD ctx.sRank 0
  let b := st.sRoute.getD (ctx.sRank + 1) 0
  let c := st.tRoute.getD ctx.tRank 0
  let d := st.tRoute.getD (ctx.tRank + 1) 0
  let s1 := (st.sRoute.set ctx.sRank c).set (ctx.sRank + 1) d
  let t1 := (st.tRoute.set ctx.tRank a).set (ctx.tRank + 1) b
  let t2 :=
    if st.reverseSEdge then
      (t1.set ctx.tRank (t1.getD (ctx.tRank + 1) 0)).set (ctx.tRank + 1)
        (t1.getD ctx.tRank 0)
    else t1
  let s2 :=
    if st.reverseTEdge then
      (s1.set ctx.sRank (s1.getD (ctx.sRank + 1) 0)).set (ctx.sRank + 1)
        (s1.getD ctx.sRank 0)
    else s1
  { st with sRoute := s2, tRoute := t2 }

/-! ## Travel cost of a route, recomputed from the matrix from scratch -/

/-- Sum of matrix costs along consecutive locations. -/
def pathCost (m : Nat → Nat → Nat) : List Nat → Nat
  | [] => 0
  | [_] => 0
  | x :: y :: rest => m x y + pathCost m (y :: rest)

/-- The location sequence travelled by a vehicle (optional start, the job
locations in route order, optional end). -/
def routeLocs (hs : Bool) (sI : Nat) (he : Bool) (eI : Nat) (jI : Nat → Nat)
    (route : List Nat) : List Nat :=
  (if hs then [sI] else []) ++ route.map jI ++ (if he then [eI] else [])

/-- Total travel cost of a route including vehicle start/end edges. -/
def routeCost (m : Nat → Nat → Nat) (hs : Bool) (sI : Nat) (he : Bool)
    (eI : Nat) (jI : Nat → Nat) (route : List Nat) : Nat :=
  pathCost m (routeLocs hs sI he eI jI route)

/-- Travel cost of the source route of a cross-exchange candidate. -/
def sRouteCost (ctx : XCtx) (route : List Nat) : Nat :=
  routeCost ctx.matrix ctx.sHasStart ctx.sStart ctx.sHasEnd ctx.sEnd
    ctx.jobIndex route

/-- Travel cost of the target route of a cross-exchange candidate. -/
def tRouteCost (ctx : XCtx) (route : List Nat) : Nat :=
  routeCost ctx.matrix ctx.tHasStart ctx.tStart ctx.tHasEnd ctx.tEnd
    ctx.jobIndex route

/-- Cost of the edge from the last location of `X` into `y` (0 when `X` is
empty). -/
def lastLink (m : Nat → Nat → Nat) (X : List Nat) (y : Nat) : Nat :=
  match X.getLast? with
  | none => 0
  | some x => m x y

/-- Cost of the edge from `y` into the first location of `X` (0 when `X` is
empty). -/
def headLink (m : Nat → Nat → Nat) (y : Nat) (X : List Nat) : Nat :=
  match X.head? with
  | none => 0
  | some x => m y x

/-- Locations before an edge at rank `|P|`: optional start then `P`. -/
def headLocs (hs : Bool) (sI : Nat) (jI : Nat → Nat) (P : List Nat) : List Nat :=
  (if hs then [sI] else []) ++ P.map jI

/-- Locations after an edge ending at rank `|P|+1`: the rest of the route
then the optional end. -/
def tailLocs (he : Bool) (eI : Nat) (jI : Nat → Nat) (N : List Nat) : List Nat :=
  N.map jI ++ (if he then [eI] else [])

theorem pathCost_cons (m : Nat → Nat → Nat) (a : Nat) (L : List Nat) :
    pathCost m (a :: L) = headLink m a L + pathCost m L := by
  cases L with
  | nil => rfl
  | cons b rest => rfl

theorem pathCost_decomp (m : Nat → Nat → Nat) (a b : Nat) :
    ∀ (X : List Nat) (Y : List Nat),
      pathCost m (X ++ a :: b :: Y) =
        pathCost m X + lastLink m X a + m a b + headLink m b Y + pathCost m Y := by
  intro X
  induction X with
  | nil =>
    intro Y
    simp only [List.nil_append, pathCost, lastLink, List.getLast?_nil]
    rw [pathCost_cons m b Y]
    omega
  | cons x X ih =>
    intro Y
    cases X with
    | nil =>
      simp only [List.cons_append, List.nil_append, pathCost, lastLink,
        List.getLast?_singleton]
      rw [pathCost_cons m b Y]
      omega
    | cons y X₂ =>
      have hlast : lastLink m (x :: y :: X₂) a = lastLink m (y :: X₂) a := by
        simp [lastLink, List.getLast?_cons_cons]
      have hstep : pathCost m ((x :: y :: X₂) ++ a :: b :: Y) =
          m x y + pathCost m ((y :: X₂) ++ a :: b :: Y) := rfl
      have hsplit : pathCost m (x :: y :: X₂) = m x y + pathCost m (y :: X₂) := rfl
      rw [hstep, ih Y, hlast, hsplit]
      omega

theorem routeLocs_decomp (hs : Bool) (sI : Nat) (he : Bool) (eI : Nat)
    (jI : Nat → Nat) (P N : List Nat) (a b : Nat) :
    routeLocs hs sI he eI jI (P ++ a :: b :: N) =
      headLocs hs sI jI P ++ jI a :: jI b :: tailLocs he eI jI N := by
  simp [routeLocs, headLocs, tailLocs, List.map_append]

/-- Closed form of the from-scratch cost of a route around the edge at rank
`|P|`. -/
theorem routeCost_decomp (m : Nat → Nat → Nat) (hs : Bool) (sI : Nat)
    (he : Bool) (eI : Nat) (jI : Nat → Nat) (P N : List Nat) (a b : Nat) :
    routeCost m hs sI he eI jI (P ++ a :: b :: N) =
      pathCost m (headLocs hs sI jI P) +
        lastLink m (headLocs hs sI jI P) (jI a) + m (jI a) (jI b) +
        headLink m (jI b) (tailLocs he eI jI N) +
        pathCost m (tailLocs he eI jI N) := by
  rw [routeCost, routeLocs_decomp, pathCost_decomp]

/-! Indexed access and update on a decomposed route. -/

theorem getD_append_self {α : Type} (P L : List α) (x : α) (d : α) :
    (P ++ x :: L).getD P.length d = x := by
  rw [List.getD_eq_getElem?_getD, List.getElem?_append_right (Nat.le_refl _)]
  simp

theorem getD_append_succ {α : Type} (P L : List α) (x y : α) (d : α) :
    (P ++ x :: y :: L).getD (P.length + 1) d = y := by
  rw [List.getD_eq_getElem?_getD,
    List.getElem?_append_right (Nat.le_succ_of_le (Nat.le_refl _))]
  simp

theorem getD_append_left {α : Type} (P L : List α) (i : Nat)
    (h : i < P.length) (d : α) : (P ++ L).getD i d = P.getD i d := by
  rw [List.getD_eq_getElem?_getD, List.getElem?_append_left h,
    List.getD_eq_getElem?_getD]

theorem set_append_self {α : Type} (P L : List α) (x c : α) :
    (P ++ x :: L).set P.length c = P ++ c :: L := by
  rw [List.set_append_right _ _ (Nat.le_refl _)]
  simp

theorem set_append_succ {α : Type} (P L : List α) (x y c : α) :
    (P ++ x :: y :: L).set (P.length + 1) c = P ++ x :: c :: L := by
  rw [List.set_append_right _ _ (Nat.le_succ_of_le (Nat.le_refl _))]
  simp [List.set]

/-- Routes produced by `apply` on a decomposed candidate: the target edge
lands at the source site (reversed when `reverse_t_edge`), the source edge
at the target site (reversed when `reverse_s_edge`). -/
theorem applyX_routes (ctx : XCtx) (st : XState) (P N Q M : List Nat)
    (s0 s1 t0 t1 : Nat) (hs : st.sRoute = P ++ s0 :: s1 :: N)
    (hsr : P.length = ctx.sRank) (ht : st.tRoute = Q ++ t0 :: t1 :: M)
    (htr : Q.length = ctx.tRank) :
    (applyX ctx st).sRoute =
        P ++ (if st.reverseTEdge then t1 :: t0 :: N else t0 :: t1 :: N) ∧
      (applyX ctx st).tRoute =
        Q ++ (if st.reverseSEdge then s1 :: s0 :: M else s0 :: s1 :: M) := by
  have hga : st.sRoute.getD ctx.sRank 0 = s0 := by
    rw [hs, ← hsr, getD_append_self]
  have hgb : st.sRoute.getD (ctx.sRank + 1) 0 = s1 := by
    rw [hs, ← hsr, getD_append_succ]
  have hgc : st.tRoute.getD ctx.tRank 0 = t0 := by
    rw [ht, ← htr, getD_append_self]
  have hgd : st.tRoute.getD (ctx.tRank + 1) 0 = t1 := by
    rw [ht, ← htr, getD_append_succ]
  have hs1 : (st.sRoute.set ctx.sRank t0).set (ctx.sRank + 1) t1 =
      P ++ t0 :: t1 :: N := by
    rw [hs, ← hsr, set_append_self, set_append_succ]
  have ht1 : (st.tRoute.set ctx.tRank s0).set (ctx.tRank + 1) s1 =
      Q ++ s0 :: s1 :: M := by
    rw [ht, ← htr, set_append_self, set_append_succ]
  constructor
  · show (let a := st.sRoute.getD ctx.sRank 0; _) = _
    simp only [applyX, hga, hgb, hgc, hgd, hs1, ht1]
    by_cases hrev : st.reverseTEdge = true
    · simp only [hrev, if_true]
      rw [← hsr, getD_append_succ, getD_append_self, set_append_self,
        set_append_succ]
    · rw [Bool.not_eq_true] at hrev
      simp [hrev]
  · show (let a := st.sRoute.getD ctx.sRank 0; _) = _
    simp only [applyX, hga, hgb, hgc, hgd, hs1, ht1]
    by_cases hrev : st.reverseSEdge = true
    · simp only [hrev, if_true]
      rw [← htr, getD_append_succ, getD_append_self, set_append_self,
        set_append_succ]
    · rw [Bool.not_eq_true] at hrev
      simp [hrev]

/-- Exchanging the middle segments of two concatenations is a permutation
of the combined elements. -/
theorem perm_exchange {α : Type} [DecidableEq α] (A B C D E F : List α) :
    ((A ++ E ++ C) ++ (D ++ B ++ F)).Perm ((A ++ B ++ C) ++ (D ++ E ++ F)) := by
  rw [List.perm_iff_count]
  intro x
  simp only [List.count_append]
  omega

theorem getD_append_pair_ne {α : Type} (P N : List α) (a b c d : α) (i : Nat)
    (h1 : i ≠ P.length) (h2 : i ≠ P.length + 1) (dflt : α) :
    (P ++ a :: b :: N).getD i dflt = (P ++ c :: d :: N).getD i dflt := by
  rcases Nat.lt_or_ge i P.length with h | h
  · rw [getD_append_left _ _ _ h, getD_append_left _ _ _ h]
  · have h3 : P.length + 2 ≤ i := by omega
    rw [List.getD_eq_getElem?_getD, List.getD_eq_getElem?_getD,
      List.getElem?_append_right (by omega), List.getElem?_append_right (by omega)]
    have h4 : i - P.length = (i - P.length - 2) + 2 := by omega
    rw [h4]
    rfl

/-- C4: `apply()` swaps `s_route[s_rank] ↔ t_route[t_rank]` and
`s_route[s_rank+1] ↔ t_route[t_rank+1]`, then swaps the two target-route
positions when `reverse_s_edge` and the two source-route positions when
`reverse_t_edge`; for every pair of routes and flag setting this preserves
the multiset of job ranks across the two routes and each route's length,
and leaves every position outside `{s_rank, s_rank+1}` of the source route
and `{t_rank, t_rank+1}` of the target route unchanged. -/
theorem cross_exchange_apply_conservation (ctx : XCtx) (st : XState)
    (P N Q M : List Nat) (s0 s1 t0 t1 : Nat)
    (hs : st.sRoute = P ++ s0 :: s1 :: N) (hsr : P.length = ctx.sRank)
    (ht : st.tRoute = Q ++ t0 :: t1 :: M) (htr : Q.length = ctx.tRank) :
    ((applyX ctx st).sRoute ++ (applyX ctx st).tRoute).Perm
        (st.sRoute ++ st.tRoute) ∧
      (applyX ctx st).sRoute.length = st.sRoute.length ∧
      (applyX ctx st).tRoute.length = st.tRoute.length ∧
      (∀ i, i ≠ ctx.sRank → i ≠ ctx.sRank + 1 →
        (applyX ctx st).sRoute.getD i 0 = st.sRoute.getD i 0) ∧
      (∀ i, i ≠ ctx.tRank → i ≠ ctx.tRank + 1 →
        (applyX ctx st).tRoute.getD i 0 = st.tRoute.getD i 0) := by
  obtain ⟨hs2, ht2⟩ := applyX_routes ctx st P N Q M s0 s1 t0 t1 hs hsr ht htr
  refine ⟨?_, ?_, ?_, ?_, ?_⟩
  · rw [hs2, ht2, hs, ht]
    have e1 : ∀ L : List Nat, P ++ L = P ++ [] ++ L := by simp
    rw [List.perm_iff_count]
    intro x
    by_cases h1 : st.reverseTEdge = true <;> by_cases h2 : st.reverseSEdge = true <;>
      simp only [h1, h2, if_true, Bool.false_eq_true, if_false] <;>
      · simp only [List.count_append, List.count_cons]
        omega
  · rw [hs2, hs]
    by_cases h1 : st.reverseTEdge = true <;> simp [h1]
  · rw [ht2, ht]
    by_cases h1 : st.reverseSEdge = true <;> simp [h1]
  · intro i hi1 hi2
    rw [hs2, hs]
    rw [← hsr] at hi1 hi2
    by_cases h1 : st.reverseTEdge = true <;>
      simp only [h1, if_true, Bool.false_eq_true, if_false] <;>
      exact getD_append_pair_ne P N _ _ _ _ i hi1 hi2 0
  · intro i hi1 hi2
    rw [ht2, ht]
    rw [← htr] at hi1 hi2
    by_cases h1 : st.reverseSEdge = true <;>
      simp only [h1, if_true, Bool.false_eq_true, if_false] <;>
      exact getD_append_pair_ne Q M _ _ _ _ i hi1 hi2 0

/-- Modelled from the spec (§3, SolutionState cache):
`edge_costs_around_edge[v][r]` for the route `P ++ a :: b :: N` with
`|P| = r` is the cost of the edge entering position `r` plus the cost of
the edge leaving position `r+1`, consulting the vehicle's start/end at the
boundary and dropping absent boundary terms. -/
def edgeCostsAroundSpec (m : Nat → Nat → Nat) (jI : Nat → Nat) (hs : Bool)
    (sI : Nat) (he : Bool) (eI : Nat) (P N : List Nat) (a b : Nat) : Nat :=
  lastLink m (headLocs hs sI jI P) (jI a) +
    headLink m (jI b) (tailLocs he eI jI N)

theorem getD_length_getLast {α : Type} :
    ∀ (p : α) (P : List α) (d : α), (p :: P).getD P.length d = (p :: P).getLastD d := by
  intro p P
  induction P generalizing p with
  | nil => intro d; rfl
  | cons q P ih =>
    intro d
    rw [List.getLastD_cons]
    have : (p :: q :: P).getD (q :: P).length d = (q :: P).getD P.length d := rfl
    rw [this, ih q d, List.getLastD_eq_getLast?, List.getLastD_eq_getLast?]
    cases hgl : (q :: P).getLast? with
    | none => rw [List.getLast?_eq_none_iff] at hgl; simp at hgl
    | some g => rfl

/-- The predecessor-edge cost computed by `gain_upper_bound` equals the link
from the head locations of the decomposed route. -/
theorem prev_eq_lastLink (m : Nat → Nat → Nat) (jI : Nat → Nat) (hs : Bool)
    (sI : Nat) (P rest : List Nat) (y : Nat) :
    (if P.length = 0 then
        (if hs then (m sI y : Int) else 0)
      else (m (jI ((P ++ rest).getD (P.length - 1) 0)) y : Int)) =
      (lastLink m (headLocs hs sI jI P) y : Int) := by
  cases P with
  | nil =>
    cases hs with
    | false => simp [headLocs, lastLink]
    | true => simp [headLocs, lastLink, List.getLast?_singleton]
  | cons p P =>
    have hne : (p :: P).length ≠ 0 := by simp
    rw [if_neg hne]
    have hlt : (p :: P).length - 1 < (p :: P).length := by simp
    rw [getD_append_left _ _ _ hlt]
    have h1 : (p :: P).length - 1 = P.length := by simp
    rw [h1, getD_length_getLast]
    have h2 : headLocs hs sI jI (p :: P) =
        (if hs then [sI] else []) ++ (p :: P).map jI := rfl
    rw [h2]
    have h3 : ((if hs then [sI] else []) ++ (p :: P).map jI).getLast? =
        ((p :: P).map jI).getLast? := by
      rw [List.getLast?_append]
      cases hmap : ((p :: P).map jI).getLast? with
      | none => rw [List.getLast?_eq_none_iff] at hmap; simp at hmap
      | some v => rfl
    rw [lastLink, h3, List.getLast?_map]
    cases hgl : (p :: P).getLast? with
    | none => rw [List.getLast?_eq_none_iff] at hgl; simp at hgl
    | some g =>
      have h4 : (p :: P).getLastD 0 = g := by
        rw [List.getLastD_eq_getLast?, hgl]; rfl
      rw [h4]
      rfl

/-- The successor-edge cost computed by `gain_upper_bound` equals the link
into the tail locations of the decomposed route. -/
theorem next_eq_headLink (m : Nat → Nat → Nat) (jI : Nat → Nat) (he : Bool)
    (eI : Nat) (P N : List Nat) (a b y : Nat) :
    (if P.length = (P ++ a :: b :: N).length - 2 then
        (if he then (m y eI : Int) else 0)
      else (m y (jI ((P ++ a :: b :: N).getD (P.length + 2) 0)) : Int)) =
      (headLink m y (tailLocs he eI jI N) : Int) := by
  cases N with
  | nil =>
    have hcond : P.length = (P ++ a :: b :: ([] : List Nat)).length - 2 := by
      simp
    rw [if_pos hcond]
    cases he with
    | false => simp [tailLocs, headLink]
    | true => simp [tailLocs, headLink]
  | cons n N =>
    have hcond : P.length ≠ (P ++ a :: b :: n :: N).length - 2 := by
      simp only [List.length_append, List.length_cons]
      omega
    rw [if_neg hcond]
    have hget : (P ++ a :: b :: n :: N).getD (P.length + 2) 0 = n := by
      rw [List.getD_eq_getElem?_getD,
        List.getElem?_append_right (by omega : P.length ≤ P.length + 2)]
      have : P.length + 2 - P.length = 2 := by omega
      rw [this]
      simp
    rw [hget]
    simp [tailLocs, headLink]

theorem gainUpperBound_preserves (ctx : XCtx) (st : XState) :
    (gainUpperBound ctx st).2.sRoute = st.sRoute ∧
      (gainUpperBound ctx st).2.tRoute = st.tRoute ∧
      (gainUpperBound ctx st).2.storedGain = st.storedGain ∧
      (gainUpperBound ctx st).2.reverseSEdge = st.reverseSEdge ∧
      (gainUpperBound ctx st).2.reverseTEdge = st.reverseTEdge ∧
      (gainUpperBound ctx st).2.sIsNormalValid = st.sIsNormalValid ∧
      (gainUpperBound ctx st).2.sIsReverseValid = st.sIsReverseValid ∧
      (gainUpperBound ctx st).2.tIsNormalValid = st.tIsNormalValid ∧
      (gainUpperBound ctx st).2.tIsReverseValid = st.tIsReverseValid :=
  ⟨rfl, rfl, rfl, rfl, rfl, rfl, rfl, rfl, rfl⟩

theorem isValidX_preserves (ctx : XCtx) (st : XState) :
    (isValidX ctx st).2.sRoute = st.sRoute ∧
      (isValidX ctx st).2.tRoute = st.tRoute ∧
      (isValidX ctx st).2.storedGain = st.storedGain ∧
      (isValidX ctx st).2.reverseSEdge = st.reverseSEdge ∧
      (isValidX ctx st).2.reverseTEdge = st.reverseTEdge ∧
      (isValidX ctx st).2.normalSGain = st.normalSGain ∧
      (isValidX ctx st).2.reversedSGain = st.reversedSGain ∧
      (isValidX ctx st).2.normalTGain = st.normalTGain ∧
      (isValidX ctx st).2.reversedTGain = st.reversedTGain := by
  simp only [isValidX]
  split <;> split <;> simp

/-- Whether `compute_gain` commits the reversed orientation of the target
edge inserted into the source route (and therefore sets `reverse_t_edge`). -/
def chooseSRev (st : XState) : Bool :=
  if st.normalSGain < st.reversedSGain then st.sIsReverseValid
  else !st.sIsNormalValid

/-- Whether `compute_gain` commits the reversed orientation of the source
edge inserted into the target route (and therefore sets `reverse_s_edge`). -/
def chooseTRev (st : XState) : Bool :=
  if st.normalTGain < st.reversedTGain then st.tIsReverseValid
  else !st.tIsNormalValid

theorem computeGain_spec (st : XState) :
    (computeGain st).storedGain = st.storedGain +
        (if chooseSRev st then st.reversedSGain else st.normalSGain) +
        (if chooseTRev st then st.reversedTGain else st.normalTGain) ∧
      (computeGain st).reverseTEdge = (chooseSRev st || st.reverseTEdge) ∧
      (computeGain st).reverseSEdge = (chooseTRev st || st.reverseSEdge) ∧
      (computeGain st).sRoute = st.sRoute ∧
      (computeGain st).tRoute = st.tRoute := by
  by_cases h1 : st.normalSGain < st.reversedSGain <;>
    by_cases h2 : st.sIsReverseValid = true <;>
    by_cases h3 : st.sIsNormalValid = true <;>
    by_cases h4 : st.normalTGain < st.reversedTGain <;>
    by_cases h5 : st.tIsReverseValid = true <;>
    by_cases h6 : st.tIsNormalValid = true <;>
    simp [computeGain, chooseSRev, chooseTRev, h1, h2, h3, h4, h5, h6]

/-- The four sub-gains stored by `gain_upper_bound` on a decomposed
candidate, in terms of the cache entries and the boundary links, and the
returned upper bound. -/
theorem gainUpperBound_gains (ctx : XCtx) (st : XState) (P N Q M : List Nat)
    (s0 s1 t0 t1 : Nat) (hs : st.sRoute = P ++ s0 :: s1 :: N)
    (hsr : P.length = ctx.sRank) (ht : st.tRoute = Q ++ t0 :: t1 :: M)
    (htr : Q.length = ctx.tRank) :
    (gainUpperBound ctx st).2.normalSGain =
        ctx.edgeCostsS ctx.sRank -
          (lastLink ctx.matrix (headLocs ctx.sHasStart ctx.sStart ctx.jobIndex P)
            (ctx.jobIndex t0) : Int) -
          (headLink ctx.matrix (ctx.jobIndex t1)
            (tailLocs ctx.sHasEnd ctx.sEnd ctx.jobIndex N) : Int) ∧
      (gainUpperBound ctx st).2.reversedSGain =
        ctx.edgeCostsS ctx.sRank +
          ((ctx.matrix (ctx.jobIndex t0) (ctx.jobIndex t1) : Int) -
            (ctx.matrix (ctx.jobIndex t1) (ctx.jobIndex t0) : Int)) -
          (lastLink ctx.matrix (headLocs ctx.sHasStart ctx.sStart ctx.jobIndex P)
            (ctx.jobIndex t1) : Int) -
          (headLink ctx.matrix (ctx.jobIndex t0)
            (tailLocs ctx.sHasEnd ctx.sEnd ctx.jobIndex N) : Int) ∧
      (gainUpperBound ctx st).2.normalTGain =
        ctx.edgeCostsT ctx.tRank -
          (lastLink ctx.matrix (headLocs ctx.tHasStart ctx.tStart ctx.jobIndex Q)
            (ctx.jobIndex s0) : Int) -
          (headLink ctx.matrix (ctx.jobIndex s1)
            (tailLocs ctx.tHasEnd ctx.tEnd ctx.jobIndex M) : Int) ∧
      (gainUpperBound ctx st).2.reversedTGain =
        ctx.edgeCostsT ctx.tRank +
          ((ctx.matrix (ctx.jobIndex s0) (ctx.jobIndex s1) : Int) -
            (ctx.matrix (ctx.jobIndex s1) (ctx.jobIndex s0) : Int)) -
          (lastLink ctx.matrix (headLocs ctx.tHasStart ctx.tStart ctx.jobIndex Q)
            (ctx.jobIndex s1) : Int) -
          (headLink ctx.matrix (ctx.jobIndex s0)
            (tailLocs ctx.tHasEnd ctx.tEnd ctx.jobIndex M) : Int) ∧
      (gainUpperBound ctx st).1 =
        max (gainUpperBound ctx st).2.normalSGain
            (gainUpperBound ctx st).2.reversedSGain +
          max (gainUpperBound ctx st).2.normalTGain
            (gainUpperBound ctx st).2.reversedTGain := by
  have hga : st.sRoute.getD ctx.sRank 0 = s0 := by
    rw [hs, ← hsr, getD_append_self]
  have hgb : st.sRoute.getD (ctx.sRank + 1) 0 = s1 := by
    rw [hs, ← hsr, getD_append_succ]
  have hgc : st.tRoute.getD ctx.tRank 0 = t0 := by
    rw [ht, ← htr, getD_append_self]
  have hgd : st.tRoute.getD (ctx.tRank + 1) 0 = t1 := by
    rw [ht, ← htr, getD_append_succ]
  have hprevS := fun y => prev_eq_lastLink ctx.matrix ctx.jobIndex
    ctx.sHasStart ctx.sStart P (s0 :: s1 :: N) y
  have hnextS := fun y => next_eq_headLink ctx.matrix ctx.jobIndex
    ctx.sHasEnd ctx.sEnd P N s0 s1 y
  have hprevT := fun y => prev_eq_lastLink ctx.matrix ctx.jobIndex
    ctx.tHasStart ctx.tStart Q (t0 :: t1 :: M) y
  have hnextT := fun y => next_eq_headLink ctx.matrix ctx.jobIndex
    ctx.tHasEnd ctx.tEnd Q M t0 t1 y
  simp only [gainUpperBound, hga, hgb, hgc, hgd, hs, ht, ← hsr, ← htr,
    hprevS, hnextS, hprevT, hnextT, getD_append_self, getD_append_succ]
  exact ⟨trivial, trivial, trivial, trivial, trivial⟩

/-- Operator state of a candidate after the protocol prefix
`gain_upper_bound(); is_valid(); compute_gain()` has run on a fresh
candidate. -/
def pipelineState (ctx : XCtx) (s t : List Nat) : XState :=
  computeGain (isValidX ctx (gainUpperBound ctx (mkXState s t)).2).2

/-- C1: for a cross-exchange candidate on which `gain_upper_bound()` has
run, `is_valid()` returned true and `compute_gain()` committed
`stored_gain`, and whose `edge_costs_around_edge` cache entries reflect the
current contents of both routes, `apply()` decreases the total travel cost
of the two routes, recomputed from the matrix from scratch including
vehicle start/end edges, by exactly `stored_gain`. -/
theorem cross_exchange_gain_correctness (ctx : XCtx) (P N Q M : List Nat)
    (s0 s1 t0 t1 : Nat) (hsr : P.length = ctx.sRank)
    (htr : Q.length = ctx.tRank)
    (hcS : ctx.edgeCostsS ctx.sRank =
      (edgeCostsAroundSpec ctx.matrix ctx.jobIndex ctx.sHasStart ctx.sStart
        ctx.sHasEnd ctx.sEnd P N s0 s1 : Int))
    (hcT : ctx.edgeCostsT ctx.tRank =
      (edgeCostsAroundSpec ctx.matrix ctx.jobIndex ctx.tHasStart ctx.tStart
        ctx.tHasEnd ctx.tEnd Q M t0 t1 : Int))
    (_hvalid : (isValidX ctx (gainUpperBound ctx
      (mkXState (P ++ s0 :: s1 :: N) (Q ++ t0 :: t1 :: M))).2).1 = true) :
    ((sRouteCost ctx (P ++ s0 :: s1 :: N) : Int) +
        (tRouteCost ctx (Q ++ t0 :: t1 :: M) : Int)) -
      ((sRouteCost ctx (applyX ctx (pipelineState ctx (P ++ s0 :: s1 :: N)
          (Q ++ t0 :: t1 :: M))).sRoute : Int) +
        (tRouteCost ctx (applyX ctx (pipelineState ctx (P ++ s0 :: s1 :: N)
          (Q ++ t0 :: t1 :: M))).tRoute : Int)) =
      (pipelineState ctx (P ++ s0 :: s1 :: N) (Q ++ t0 :: t1 :: M)).storedGain := by
  obtain ⟨hg1, hg2, hg3, hg4, _⟩ :=
    gainUpperBound_gains ctx
      (mkXState (P ++ s0 :: s1 :: N) (Q ++ t0 :: t1 :: M))
      P N Q M s0 s1 t0 t1 rfl hsr rfl htr
  set st1 := (gainUpperBound ctx
    (mkXState (P ++ s0 :: s1 :: N) (Q ++ t0 :: t1 :: M))).2 with hst1
  set st2 := (isValidX ctx st1).2 with hst2
  have hpipe : pipelineState ctx (P ++ s0 :: s1 :: N) (Q ++ t0 :: t1 :: M) =
      computeGain st2 := rfl
  obtain ⟨hp1, hp2, hp3, hp4, hp5, hp6, hp7, hp8, hp9⟩ := isValidX_preserves ctx st1
  obtain ⟨hc1, hc2, hc3, hc4, hc5⟩ := computeGain_spec st2
  have hs1routes : st1.sRoute = P ++ s0 :: s1 :: N := by rw [hst1]; rfl
  have ht1routes : st1.tRoute = Q ++ t0 :: t1 :: M := by rw [hst1]; rfl
  have hs2routes : st2.sRoute = P ++ s0 :: s1 :: N := by
    rw [hst2, hp1, hs1routes]
  have ht2routes : st2.tRoute = Q ++ t0 :: t1 :: M := by
    rw [hst2, hp2, ht1routes]
  have hstored0 : st2.storedGain = 0 := by rw [hst2, hp3, hst1]; rfl
  have hrte : st2.reverseTEdge = false := by rw [hst2, hp5, hst1]; rfl
  have hrse : st2.reverseSEdge = false := by rw [hst2, hp4, hst1]; rfl
  have hs3routes : (computeGain st2).sRoute = P ++ s0 :: s1 :: N := by
    rw [hc4, hs2routes]
  have ht3routes : (computeGain st2).tRoute = Q ++ t0 :: t1 :: M := by
    rw [hc5, ht2routes]
  have hrevT3 : (computeGain st2).reverseTEdge = chooseSRev st2 := by
    rw [hc2, hrte, Bool.or_false]
  have hrevS3 : (computeGain st2).reverseSEdge = chooseTRev st2 := by
    rw [hc3, hrse, Bool.or_false]
  obtain ⟨happS, happT⟩ := applyX_routes ctx (computeGain st2) P N Q M
    s0 s1 t0 t1 hs3routes hsr ht3routes htr
  rw [hpipe, happS, happT, hc1, hstored0, hrevT3, hrevS3]
  have hn2 : st2.normalSGain = st1.normalSGain := by rw [hst2, hp6]
  have hr2 : st2.reversedSGain = st1.reversedSGain := by rw [hst2, hp7]
  have hnt2 : st2.normalTGain = st1.normalTGain := by rw [hst2, hp8]
  have hrt2 : st2.reversedTGain = st1.reversedTGain := by rw [hst2, hp9]
  rw [hn2, hr2, hnt2, hrt2, hg1, hg2, hg3, hg4, hcS, hcT]
  by_cases hbS : chooseSRev st2 = true <;> by_cases hbT : chooseTRev st2 = true <;>
    simp only [hbS, hbT, if_true, Bool.false_eq_true, if_false, sRouteCost,
      tRouteCost, routeCost_decomp, edgeCostsAroundSpec] <;>
    push_cast <;>
    omega

theorem gainUpperBound_fst (ctx : XCtx) (st : XState) :
    (gainUpperBound ctx st).1 =
      max (gainUpperBound ctx st).2.normalSGain
          (gainUpperBound ctx st).2.reversedSGain +
        max (gainUpperBound ctx st).2.normalTGain
          (gainUpperBound ctx st).2.reversedTGain := rfl

/-- C3: whenever `gain_upper_bound()` returned `u`, `is_valid()` then
returned true and `compute_gain()` committed `stored_gain = g`, the bound
dominates: `g ≤ u`, for every orientation fallback `compute_gain` can
take. -/
theorem cross_exchange_upper_bound_ge_stored (ctx : XCtx) (s t : List Nat)
    (_hvalid : (isValidX ctx (gainUpperBound ctx (mkXState s t)).2).1 = true) :
    (pipelineState ctx s t).storedGain ≤
      (gainUpperBound ctx (mkXState s t)).1 := by
  set st1 := (gainUpperBound ctx (mkXState s t)).2 with hst1
  set st2 := (isValidX ctx st1).2 with hst2
  obtain ⟨hp1, hp2, hp3, hp4, hp5, hp6, hp7, hp8, hp9⟩ := isValidX_preserves ctx st1
  obtain ⟨hc1, hc2, hc3, hc4, hc5⟩ := computeGain_spec st2
  have hstored0 : st2.storedGain = 0 := by rw [hst2, hp3, hst1]; rfl
  have hub : (gainUpperBound ctx (mkXState s t)).1 =
      max st1.normalSGain st1.reversedSGain +
        max st1.normalTGain st1.reversedTGain := by
    rw [gainUpperBound_fst, ← hst1]
  have hpipe : pipelineState ctx s t = computeGain st2 := rfl
  have hn2 : st2.normalSGain = st1.normalSGain := by rw [hst2, hp6]
  have hr2 : st2.reversedSGain = st1.reversedSGain := by rw [hst2, hp7]
  have hnt2 : st2.normalTGain = st1.normalTGain := by rw [hst2, hp8]
  have hrt2 : st2.reversedTGain = st1.reversedTGain := by rw [hst2, hp9]
  rw [hpipe, hc1, hstored0, hub, hn2, hr2, hnt2, hrt2]
  by_cases hbS : chooseSRev st2 = true <;> by_cases hbT : chooseTRev st2 = true <;>
    simp only [hbS, hbT, if_true, Bool.false_eq_true, if_false, zero_add] <;>
    apply add_le_add <;>
    first
      | exact le_max_left _ _
      | exact le_max_right _ _

/-- Skill compatibility of the four exchanged jobs with their destination
vehicles (is_valid, lines 196-199). -/
def xCompat (ctx : XCtx) (st : XState) : Bool :=
  ctx.tVehicleOk (st.sRoute.getD ctx.sRank 0) &&
    ctx.tVehicleOk (st.sRoute.getD (ctx.sRank + 1) 0) &&
    ctx.sVehicleOk (st.tRoute.getD ctx.tRank 0) &&
    ctx.sVehicleOk (st.tRoute.getD (ctx.tRank + 1) 0)

/-- Pickup of the target edge (is_valid, lines 201-202). -/
def xTargetPickup (ctx : XCtx) (st : XState) : List Nat :=
  amountAdd (ctx.jobPickup (st.tRoute.getD ctx.tRank 0))
    (ctx.jobPickup (st.tRoute.getD (ctx.tRank + 1) 0))

/-- Delivery of the target edge (is_valid, lines 203-204). -/
def xTargetDelivery (ctx : XCtx) (st : XState) : List Nat :=
  amountAdd (ctx.jobDelivery (st.tRoute.getD ctx.tRank 0))
    (ctx.jobDelivery (st.tRoute.getD (ctx.tRank + 1) 0))

/-- Pickup of the source edge (is_valid, lines 234-235). -/
def xSourcePickup (ctx : XCtx) (st : XState) : List Nat :=
  amountAdd (ctx.jobPickup (st.sRoute.getD ctx.sRank 0))
    (ctx.jobPickup (st.sRoute.getD (ctx.sRank + 1) 0))

/-- Delivery of the source edge (is_valid, lines 236-237). -/
def xSourceDelivery (ctx : XCtx) (st : XState) : List Nat :=
  amountAdd (ctx.jobDelivery (st.sRoute.getD ctx.sRank 0))
    (ctx.jobDelivery (st.sRoute.getD (ctx.sRank + 1) 0))

/-- Capacity-margin check of the target edge at the source site
`[s_rank, s_rank+2)` (is_valid, lines 205-209). -/
def xSMarginsOk (ctx : XCtx) (st : XState) : Bool :=
  ctx.sMargins (xTargetPickup ctx st) (xTargetDelivery ctx st) ctx.sRank
    (ctx.sRank + 2)

/-- Inclusion check of the target edge inserted forward (lines 213-220). -/
def xSInclNormal (ctx : XCtx) (st : XState) : Bool :=
  ctx.sInclusion (xTargetDelivery ctx st)
    [st.tRoute.getD ctx.tRank 0, st.tRoute.getD (ctx.tRank + 1) 0]
    ctx.sRank (ctx.sRank + 2)

/-- Inclusion check of the target edge inserted reversed (lines 221-229). -/
def xSInclReverse (ctx : XCtx) (st : XState) : Bool :=
  ctx.sInclusion (xTargetDelivery ctx st)
    [st.tRoute.getD (ctx.tRank + 1) 0, st.tRoute.getD ctx.tRank 0]
    ctx.sRank (ctx.sRank + 2)

/-- Capacity-margin check of the source edge at the target site
`[t_rank, t_rank+2)` (is_valid, lines 239-243). -/
def xTMarginsOk (ctx : XCtx) (st : XState) : Bool :=
  ctx.tMargins (xSourcePickup ctx st) (xSourceDelivery ctx st) ctx.tRank
    (ctx.tRank + 2)

/-- Inclusion check of the source edge inserted forward (lines 247-255). -/
def xTInclNormal (ctx : XCtx) (st : XState) : Bool :=
  ctx.tInclusion (xSourceDelivery ctx st)
    [st.sRoute.getD ctx.sRank 0, st.sRoute.getD (ctx.sRank + 1) 0]
    ctx.tRank (ctx.tRank + 2)

/-- Inclusion check of the source edge inserted reversed (lines 257-265). -/
def xTInclReverse (ctx : XCtx) (st : XState) : Bool :=
  ctx.tInclusion (xSourceDelivery ctx st)
    [st.sRoute.getD (ctx.sRank + 1) 0, st.sRoute.getD ctx.sRank 0]
    ctx.tRank (ctx.tRank + 2)

/-- The validity chain of `is_valid` as a function of its seven boolean
checks. -/
def validChain (st : XState) (c sm sn sr tm tn tr : Bool) : Bool × XState :=
  let v0 := c && sm
  let st1 :=
    if v0 then { st with sIsNormalValid := sn, sIsReverseValid := sr } else st
  let v1 := if v0 then st1.sIsNormalValid || st1.sIsReverseValid else v0
  let v2 := v1 && tm
  let st2 :=
    if v2 then { st1 with tIsNormalValid := tn, tIsReverseValid := tr } else st1
  let v3 := if v2 then st2.tIsNormalValid || st2.tIsReverseValid else v2
  (v3, st2)

theorem isValidX_eq (ctx : XCtx) (st : XState) :
    isValidX ctx st =
      validChain st (xCompat ctx st) (xSMarginsOk ctx st)
        (xSInclNormal ctx st) (xSInclReverse ctx st) (xTMarginsOk ctx st)
        (xTInclNormal ctx st) (xTInclReverse ctx st) := rfl

theorem validChainEval (st : XState) (c sm sn sr tm tn tr : Bool) :
    ((validChain st c sm sn sr tm tn tr).1 = true ↔
      (c = true ∧ sm = true ∧ (sn = true ∨ sr = true) ∧ tm = true ∧
        (tn = true ∨ tr = true))) ∧
      ((validChain st c sm sn sr tm tn tr).1 = true →
        ((validChain st c sm sn sr tm tn tr).2.sIsNormalValid = sn ∧
          (validChain st c sm sn sr tm tn tr).2.sIsReverseValid = sr ∧
          (validChain st c sm sn sr tm tn tr).2.tIsNormalValid = tn ∧
          (validChain st c sm sn sr tm tn tr).2.tIsReverseValid = tr ∧
          ((validChain st c sm sn sr tm tn tr).2.sIsNormalValid = true ∨
            (validChain st c sm sn sr tm tn tr).2.sIsReverseValid = true) ∧
          ((validChain st c sm sn sr tm tn tr).2.tIsNormalValid = true ∨
            (validChain st c sm sn sr tm tn tr).2.tIsReverseValid = true))) := by
  cases c <;> cases sm <;> cases sn <;> cases sr <;> cases tm <;> cases tn <;>
    cases tr <;> simp [validChain]

/-- C5: `is_valid()` returns true iff all four exchanged jobs are
compatible with their destination vehicle, both capacity-margin checks
pass, and on each side at least one of the two segment orientations passes
the inclusion check; when it returns true the four flags record exactly
which orientations are feasible, with at least one flag set on each
side. -/
theorem cross_exchange_is_valid_iff (ctx : XCtx) (st : XState) :
    ((isValidX ctx st).1 = true ↔
      (xCompat ctx st = true ∧ xSMarginsOk ctx st = true ∧
        (xSInclNormal ctx st = true ∨ xSInclReverse ctx st = true) ∧
        xTMarginsOk ctx st = true ∧
        (xTInclNormal ctx st = true ∨ xTInclReverse ctx st = true))) ∧
      ((isValidX ctx st).1 = true →
        ((isValidX ctx st).2.sIsNormalValid = xSInclNormal ctx st ∧
          (isValidX ctx st).2.sIsReverseValid = xSInclReverse ctx st ∧
          (isValidX ctx st).2.tIsNormalValid = xTInclNormal ctx st ∧
          (isValidX ctx st).2.tIsReverseValid = xTInclReverse ctx st ∧
          ((isValidX ctx st).2.sIsNormalValid = true ∨
            (isValidX ctx st).2.sIsReverseValid = true) ∧
          ((isValidX ctx st).2.tIsNormalValid = true ∨
            (isValidX ctx st).2.tIsReverseValid = true))) := by
  rw [isValidX_eq ctx st]
  exact validChainEval st (xCompat ctx st) (xSMarginsOk ctx st)
    (xSInclNormal ctx st) (xSInclReverse ctx st) (xTMarginsOk ctx st)
    (xTInclNormal ctx st) (xTInclReverse ctx st)

/-- A small concrete cross-exchange context: source vehicle with start 8
and end 9, target vehicle with neither; identity job locations; matrix
`m i j = 10 i + j`; all capacity queries accept.  The cache rows hold the
values for source route `[0, 1]` and target route `[2, 3]`. -/
def ctxEx : XCtx where
  matrix := fun i j => 10 * i + j
  jobIndex := fun j => j
  jobPickup := fun _ => [1]
  jobDelivery := fun _ => [1]
  sHasStart := true
  sStart := 8
  sHasEnd := true
  sEnd := 9
  tHasStart := false
  tStart := 0
  tHasEnd := false
  tEnd := 0
  sRank := 0
  tRank := 0
  edgeCostsS := fun _ => 99
  edgeCostsT := fun _ => 0
  sVehicleOk := fun _ => true
  tVehicleOk := fun _ => true
  sMargins := fun _ _ _ _ => true
  sInclusion := fun _ _ _ _ => true
  tMargins := fun _ _ _ _ => true
  tInclusion := fun _ _ _ _ => true

/-- C10: `gain_upper_bound()`, `is_valid()` and `compute_gain()` leave both
borrowed routes unchanged — they only read them and write operator-internal
fields — while `apply()` does mutate the routes (witnessed on a concrete
candidate).  The `Input` and `SolutionState` data live in the read-only
context, which no method can write. -/
theorem cross_exchange_frame (ctx : XCtx) (st : XState) :
    ((gainUpperBound ctx st).2.sRoute = st.sRoute ∧
        (gainUpperBound ctx st).2.tRoute = st.tRoute) ∧
      ((isValidX ctx st).2.sRoute = st.sRoute ∧
        (isValidX ctx st).2.tRoute = st.tRoute) ∧
      ((computeGain st).sRoute = st.sRoute ∧
        (computeGain st).tRoute = st.tRoute) ∧
      (applyX ctxEx (mkXState [0, 1] [2, 3])).sRoute ≠
        (mkXState [0, 1] [2, 3]).sRoute := by
  refine ⟨⟨rfl, rfl⟩, ⟨(isValidX_preserves ctx st).1,
    (isValidX_preserves ctx st).2.1⟩,
    ⟨(computeGain_spec st).2.2.2.1, (computeGain_spec st).2.2.2.2⟩, ?_⟩
  decide

/-- C1 witness: the gain-correctness theorem evaluated on the concrete
candidate `ctxEx` with routes `[0, 1]` and `[2, 3]`. -/
theorem cross_exchange_gain_correctness_witness :
    ((sRouteCost ctxEx [0, 1] : Int) + (tRouteCost ctxEx [2, 3] : Int)) -
      ((sRouteCost ctxEx (applyX ctxEx (pipelineState ctxEx [0, 1] [2, 3])).sRoute : Int) +
        (tRouteCost ctxEx (applyX ctxEx (pipelineState ctxEx [0, 1] [2, 3])).tRoute : Int)) =
      (pipelineState ctxEx [0, 1] [2, 3]).storedGain :=
  cross_exchange_gain_correctness ctxEx [] [] [] [] 0 1 2 3 (by decide)
    (by decide) (by decide) (by decide) (by decide)

/-- C3 witness: the domination theorem evaluated on the concrete
candidate. -/
theorem cross_exchange_upper_bound_ge_stored_witness :
    (pipelineState ctxEx [0, 1] [2, 3]).storedGain ≤
      (gainUpperBound ctxEx (mkXState [0, 1] [2, 3])).1 :=
  cross_exchange_upper_bound_ge_stored ctxEx [0, 1] [2, 3] (by decide)

/-- C4 witness: the conservation theorem evaluated on the concrete
candidate. -/
theorem cross_exchange_apply_conservation_witness :
    ((applyX ctxEx (mkXState [0, 1] [2, 3])).sRoute ++
        (applyX ctxEx (mkXState [0, 1] [2, 3])).tRoute).Perm
      ((mkXState [0, 1] [2, 3]).sRoute ++ (mkXState [0, 1] [2, 3]).tRoute) :=
  (cross_exchange_apply_conservation ctxEx (mkXState [0, 1] [2, 3])
    [] [] [] [] 0 1 2 3 rfl rfl rfl rfl).1

/-- C5 witness: on the concrete candidate `is_valid()` returns true and the
flag part of the characterisation applies. -/
theorem cross_exchange_is_valid_iff_witness :
    (isValidX ctxEx (mkXState [0, 1] [2, 3])).1 = true ∧
      (isValidX ctxEx (mkXState [0, 1] [2, 3])).2.sIsNormalValid =
        xSInclNormal ctxEx (mkXState [0, 1] [2, 3]) :=
  ⟨by decide,
    ((cross_exchange_is_valid_iff ctxEx (mkXState [0, 1] [2, 3])).2
      (by decide)).1⟩

/-! ## Insertion heuristics (`solomon.cpp`) -/

/-- Modelled from the spec (typedefs outside the two sources): the sentinel
`std::numeric_limits<Cost>::max()` of the 32-bit cost type. -/
def costSentinel : Nat := 2 ^ 32 - 1

/-- Modelled from the spec (typedefs outside the two sources): the sentinel
`std::numeric_limits<Duration>::max()` of the 32-bit duration type. -/
def durationSentinel : Nat := 2 ^ 32 - 1

/-- Empty-route cost of fetching job `j` with vehicle `v` (solomon.cpp
lines 56-68 and 202-219): start-to-job plus job-to-end, dropping absent
boundary edges. -/
def jobCost (env : HEnv) (v j : Nat) : Nat :=
  (if env.hasStart v then env.matrix (env.startIdx v) (env.jobIndex j) else 0) +
    (if env.hasEnd v then env.matrix (env.jobIndex j) (env.endIdx v) else 0)

/-- Modelled from the spec (§4.2): `utils::addition_cost` — the travel-cost
increase of inserting job `j` at position `r` of `route`; empty route uses
the depot edges, boundary positions substitute the depot edge, interior
positions use `cost(prev→job) + cost(job→next) − cost(prev→next)`. -/
def additionCost (env : HEnv) (v j : Nat) (route : List Nat) (r : Nat) : Int :=
  let jIdx := env.jobIndex j
  if r = route.length then
    if route.length = 0 then
      (if env.hasStart v then (env.matrix (env.startIdx v) jIdx : Int) else 0) +
        (if env.hasEnd v then (env.matrix jIdx (env.endIdx v) : Int) else 0)
    else
      let p := env.jobIndex (route.getD (r - 1) 0)
      (env.matrix p jIdx : Int) +
        (if env.hasEnd v then
          (env.matrix jIdx (env.endIdx v) : Int) -
            (env.matrix p (env.endIdx v) : Int)
        else 0)
  else
    let n := env.jobIndex (route.getD r 0)
    (env.matrix jIdx n : Int) +
      (if r = 0 then
        (if env.hasStart v then
          (env.matrix (env.startIdx v) jIdx : Int) -
            (env.matrix (env.startIdx v) n : Int)
        else 0)
      else
        let p := env.jobIndex (route.getD (r - 1) 0)
        (env.matrix p jIdx : Int) - (env.matrix p n : Int))

/-- The quantity minimised by the greedy insertion loop for a candidate
pair `(job, position)`: `addition_cost − λ · penalty[job]` (the penalty is
`costs[job]` in `basic`, `regrets[job]` in `dynamic_vehicle_choice`).
`float` arithmetic is modelled exactly over `ℚ`. -/
def pairCost (env : HEnv) (v : Nat) (route : List Nat) (lam : ℚ)
    (penalty : Nat → Nat) (p : Nat × Nat) : ℚ :=
  (additionCost env v p.1 route p.2 : ℚ) - lam * (penalty p.1 : ℚ)

/-- Capacity and time-window feasibility of inserting job `p.1` at position
`p.2` (solomon.cpp lines 157-163). -/
def pairFeasible (env : HEnv) (v : Nat) (route : List Nat) (p : Nat × Nat) : Bool :=
  env.validCapacityAdd v route p.1 p.2 && env.validTWAdd v route p.1 p.2

/-- The candidate pairs scanned by the greedy loop, in scan order: jobs in
`unassigned` order (ascending, as in the `std::set`), incompatible jobs
skipped, positions `0..size`. -/
def candidatePairs (size : Nat) (compat : Nat → Bool)
    (unassigned : List Nat) : List (Nat × Nat) :=
  (unassigned.filter compat).flatMap fun j =>
    (List.range (size + 1)).map fun r => (j, r)

/-- One comparison of the greedy scan: a candidate replaces the incumbent
iff its cost is strictly smaller and it is feasible (lines 157-167; the
initial incumbent is the `FLT_MAX` sentinel, modelled as `none`). -/
def scanStep (cf : Nat × Nat → ℚ) (fs : Nat × Nat → Bool)
    (acc : Option (ℚ × Nat × Nat)) (p : Nat × Nat) : Option (ℚ × Nat × Nat) :=
  match acc with
  | none => if fs p then some (cf p, p.1, p.2) else none
  | some b => if cf p < b.1 ∧ fs p = true then some (cf p, p.1, p.2) else acc

/-- The full scan of one greedy iteration (lines 135-169): the best
`(cost, job, position)` or `none` when no feasible insertion exists. -/
def selectBest (env : HEnv) (v : Nat) (route : List Nat) (lam : ℚ)
    (penalty : Nat → Nat) (unassigned : List Nat) : Option (ℚ × Nat × Nat) :=
  (candidatePairs route.length (env.vehicleOk v) unassigned).foldl
    (scanStep (pairCost env v route lam penalty) (pairFeasible env v route)) none

/-- A strict-first-argmin fold returns `none` exactly on fully infeasible
lists, and otherwise the first feasible pair of minimal cost: strictly
cheaper than every feasible pair before it, no more expensive than every
feasible pair after it. -/
theorem scanFold_spec (cf : Nat × Nat → ℚ) (fs : Nat × Nat → Bool)
    (l : List (Nat × Nat)) :
    (l.foldl (scanStep cf fs) none = none ↔ ∀ p ∈ l, fs p = false) ∧
      (∀ c j r, l.foldl (scanStep cf fs) none = some (c, j, r) →
        ∃ l₁ l₂, l = l₁ ++ (j, r) :: l₂ ∧ fs (j, r) = true ∧ c = cf (j, r) ∧
          (∀ p ∈ l₁, fs p = true → cf (j, r) < cf p) ∧
          (∀ p ∈ l₂, fs p = true → cf (j, r) ≤ cf p)) := by
  induction l using List.reverseRecOn with
  | nil => exact ⟨by simp, by simp⟩
  | append_singleton l q ih =>
    rw [List.foldl_append]
    simp only [List.foldl_cons, List.foldl_nil]
    constructor
    · cases hres : l.foldl (scanStep cf fs) none with
      | none =>
        simp only [scanStep]
        by_cases hq : fs q = true
        · simp only [hq, if_true]
          constructor
          · intro h; cases h
          · intro h
            have := h q (by simp)
            rw [hq] at this
            cases this
        · rw [Bool.not_eq_true] at hq
          simp only [hq, Bool.false_eq_true, if_false]
          constructor
          · intro _
            intro p hp
            rcases List.mem_append.mp hp with hp | hp
            · exact (ih.1.mp hres) p hp
            · rcases List.mem_singleton.mp hp with rfl
              exact hq
          · intro _; trivial
      | some b =>
        obtain ⟨l₁, l₂, hsplit, hfeas, _, _, _⟩ :=
          ih.2 b.1 b.2.1 b.2.2 (by rw [hres])
        constructor
        · simp only [scanStep]
          split
          · intro h; cases h
          · intro h; cases h
        · intro h
          have := h (b.2.1, b.2.2) (by rw [hsplit]; simp)
          rw [hfeas] at this
          cases this
    · intro c j r h
      revert h
      cases hres : l.foldl (scanStep cf fs) none with
      | none =>
        simp only [scanStep]
        by_cases hq : fs q = true
        · simp only [hq, if_true]
          intro h
          have hso := Option.some.inj h
          have h1 : cf q = c := congrArg (fun x => x.1) hso
          have h2 : (q.1, q.2) = (j, r) := congrArg (fun x => x.2) hso
          have hq2 : q = (j, r) := by rw [← h2]
          subst hq2
          refine ⟨l, [], rfl, hq, h1.symm, ?_, by simp⟩
          intro p hp hfp
          rw [ih.1.mp hres p hp] at hfp
          cases hfp
        · rw [Bool.not_eq_true] at hq
          simp only [hq, Bool.false_eq_true, if_false]
          intro h; cases h
      | some b =>
        obtain ⟨l₁, l₂, hsplit, hfeas, hcost, hbefore, hafter⟩ :=
          ih.2 b.1 b.2.1 b.2.2 (by rw [hres])
        simp only [scanStep]
        by_cases hrep : cf q < b.1 ∧ fs q = true
        · simp only [hrep, if_true]
          intro h
          have hso := Option.some.inj h
          have h1 : cf q = c := congrArg (fun x => x.1) hso
          have h2 : (q.1, q.2) = (j, r) := congrArg (fun x => x.2) hso
          have hq2 : q = (j, r) := by rw [← h2]
          subst hq2
          refine ⟨l, [], rfl, hrep.2, h1.symm, ?_, by simp⟩
          intro p hp hfp
          rw [hsplit] at hp
          rcases List.mem_append.mp hp with hp | hp
          · exact lt_trans hrep.1 (hcost ▸ hbefore p hp hfp)
          · rcases List.mem_cons.mp hp with rfl | hp
            · rw [← hcost]; exact hrep.1
            · exact lt_of_lt_of_le hrep.1 (hcost ▸ hafter p hp hfp)
        · simp only [hrep, if_false]
          intro h
          have hso := Option.some.inj h
          have h1 : b.1 = c := congrArg (fun x => x.1) hso
          have h2 : (b.2.1, b.2.2) = (j, r) := congrArg (fun x => x.2) hso
          have h3 : b.2 = (j, r) := by rw [← h2]
          refine ⟨l₁, l₂ ++ [q], ?_, ?_, ?_, ?_, ?_⟩
          · rw [← h3, hsplit]; simp
          · rw [← h3]; exact hfeas
          · rw [← h1, ← h3]; exact hcost
          · intro p hp hfp
            rw [← h3]; exact hcost ▸ hbefore p hp hfp
          · intro p hp hfp
            rcases List.mem_append.mp hp with hp | hp
            · rw [← h3]; exact hcost ▸ hafter p hp hfp
            · rcases List.mem_singleton.mp hp with rfl
              rw [← h3, ← hcost]
              by_contra hlt
              push_neg at hlt
              exact hrep ⟨hlt, hfp⟩

theorem mem_candidatePairs {size : Nat} {compat : Nat → Bool}
    {unassigned : List Nat} {p : Nat × Nat} :
    p ∈ candidatePairs size compat unassigned ↔
      p.1 ∈ unassigned ∧ compat p.1 = true ∧ p.2 < size + 1 := by
  cases p with
  | mk j r =>
    simp only [candidatePairs, List.mem_flatMap, List.mem_filter,
      List.mem_map, List.mem_range, Prod.mk.injEq]
    constructor
    · rintro ⟨j2, ⟨hj2, hc⟩, r2, hlt, rfl, rfl⟩
      exact ⟨hj2, hc, hlt⟩
    · rintro ⟨hj, hc, hr⟩
      exact ⟨j, ⟨hj, hc⟩, r, hr, rfl, rfl⟩

/-- Facts about a successful greedy scan: the chosen job is unassigned and
compatible, the position is in range, the insertion is feasible, and the
reported cost is its scan cost. -/
theorem selectBest_some (env : HEnv) (v : Nat) (route : List Nat) (lam : ℚ)
    (penalty : Nat → Nat) (unassigned : List Nat) (c : ℚ) (j r : Nat)
    (h : selectBest env v route lam penalty unassigned = some (c, j, r)) :
    j ∈ unassigned ∧ env.vehicleOk v j = true ∧ r ≤ route.length ∧
      pairFeasible env v route (j, r) = true ∧
      c = pairCost env v route lam penalty (j, r) := by
  obtain ⟨l₁, l₂, hsplit, hfeas, hcost, _, _⟩ :=
    (scanFold_spec (pairCost env v route lam penalty)
      (pairFeasible env v route)
      (candidatePairs route.length (env.vehicleOk v) unassigned)).2 c j r h
  have hmem : (j, r) ∈ candidatePairs route.length (env.vehicleOk v) unassigned := by
    rw [hsplit]; simp
  obtain ⟨h1, h2, h3⟩ := mem_candidatePairs.mp hmem
  exact ⟨h1, h2, by omega, hfeas, hcost⟩

/-- The greedy insertion loop (solomon.cpp lines 134-177 and 350-393):
repeat the scan, apply the best feasible insertion and remove the job from
the unassigned set, until the scan fails. -/
def greedyLoop (env : HEnv) (v : Nat) (lam : ℚ) (penalty : Nat → Nat)
    (route : List Nat) (unassigned : List Nat) : List Nat × List Nat :=
  match h : selectBest env v route lam penalty unassigned with
  | none => (route, unassigned)
  | some (_, j, r) =>
    greedyLoop env v lam penalty (route.insertIdx r j) (unassigned.erase j)
termination_by unassigned.length
decreasing_by
  have hmem := (selectBest_some env v route lam penalty unassigned _ j r h).1
  have := List.length_erase_of_mem hmem
  have := List.length_pos_of_mem hmem
  omega

theorem insertIdx_perm {α : Type} (a : α) :
    ∀ (n : Nat) (l : List α), n ≤ l.length →
      (l.insertIdx n a).Perm (a :: l) := by
  intro n
  induction n with
  | zero => intro l _; simp [List.insertIdx_zero]
  | succ n ih =>
    intro l hl
    cases l with
    | nil => simp at hl
    | cons x xs =>
      rw [List.insertIdx_succ_cons]
      refine ((ih xs (by simpa using hl)).cons x).trans ?_
      exact List.Perm.swap a x xs

/-- The greedy loop only moves jobs from the unassigned set into the
route. -/
theorem greedyLoop_perm (env : HEnv) (v : Nat) (lam : ℚ)
    (penalty : Nat → Nat) :
    ∀ (fuel : Nat) (route unassigned : List Nat), unassigned.length ≤ fuel →
      ((greedyLoop env v lam penalty route unassigned).1 ++
        (greedyLoop env v lam penalty route unassigned).2).Perm
        (route ++ unassigned) := by
  intro fuel
  induction fuel with
  | zero =>
    intro route unassigned hlen
    have : unassigned = [] := List.length_eq_zero.mp (by omega)
    subst this
    cases h : selectBest env v route lam penalty [] with
    | none => rw [greedyLoop, h]
    | some b =>
      obtain ⟨hmem, _⟩ := selectBest_some env v route lam penalty [] b.1 b.2.1 b.2.2
        (by rw [h])
      cases hmem
  | succ fuel ih =>
    intro route unassigned hlen
    cases h : selectBest env v route lam penalty unassigned with
    | none => rw [greedyLoop, h]
    | some b =>
      obtain ⟨hmem, _, hr, _, _⟩ := selectBest_some env v route lam penalty
        unassigned b.1 b.2.1 b.2.2 (by rw [h])
      rw [greedyLoop, h]
      have hlen2 : (unassigned.erase b.2.1).length ≤ fuel := by
        have := List.length_erase_of_mem hmem
        have := List.length_pos_of_mem hmem
        omega
      refine (ih (route.insertIdx b.2.2 b.2.1) (unassigned.erase b.2.1) hlen2).trans ?_
      have hp1 : (route.insertIdx b.2.2 b.2.1).Perm (b.2.1 :: route) :=
        insertIdx_perm b.2.1 b.2.2 route hr
      refine (hp1.append_right (unassigned.erase b.2.1)).trans ?_
      refine List.Perm.trans ?_
        (List.Perm.append_left route (List.perm_cons_erase hmem).symm)
      exact List.perm_middle.symm

theorem greedyLoop_length_ge (env : HEnv) (v : Nat) (lam : ℚ)
    (penalty : Nat → Nat) :
    ∀ (fuel : Nat) (route unassigned : List Nat), unassigned.length ≤ fuel →
      route.length ≤ (greedyLoop env v lam penalty route unassigned).1.length := by
  intro fuel
  induction fuel with
  | zero =>
    intro route unassigned hlen
    have : unassigned = [] := List.length_eq_zero.mp (by omega)
    subst this
    cases h : selectBest env v route lam penalty [] with
    | none => rw [greedyLoop, h]
    | some b =>
      obtain ⟨hmem, _⟩ := selectBest_some env v route lam penalty [] b.1 b.2.1
        b.2.2 (by rw [h])
      cases hmem
  | succ fuel ih =>
    intro route unassigned hlen
    cases h : selectBest env v route lam penalty unassigned with
    | none => rw [greedyLoop, h]
    | some b =>
      obtain ⟨bc, bj, br⟩ := b
      obtain ⟨hmem, _, hr, _, _⟩ := selectBest_some env v route lam penalty
        unassigned bc bj br (by rw [h])
      have hred : greedyLoop env v lam penalty route unassigned =
          greedyLoop env v lam penalty (route.insertIdx br bj)
            (unassigned.erase bj) := by
        rw [greedyLoop, h]
      rw [hred]
      have hlen2 : (unassigned.erase bj).length ≤ fuel := by
        have := List.length_erase_of_mem hmem
        have := List.length_pos_of_mem hmem
        omega
      have hins : (route.insertIdx br bj).length = route.length + 1 :=
        List.length_insertIdx br route hr
      have := ih (route.insertIdx br bj) (unassigned.erase bj) hlen2
      omega

/-- C6: in each iteration of the greedy insertion loop, among all pairs of
an unassigned vehicle-compatible job and a position `0 ≤ r ≤ size` passing
both the capacity and the time-window checks, the scan selects the pair
minimising `addition_cost − λ·penalty[job]` (penalty is `costs` in `basic`,
`regrets` in `dynamic_vehicle_choice`), taking the first such pair in scan
order on ties (every feasible pair scanned earlier costs strictly more);
the loop stops exactly when no feasible insertion exists.  `float`
arithmetic is modelled exactly over `ℚ`. -/
theorem greedy_insertion_minimizes (env : HEnv) (v : Nat) (route : List Nat)
    (lam : ℚ) (penalty : Nat → Nat) (unassigned : List Nat) :
    (selectBest env v route lam penalty unassigned = none ↔
      ∀ j ∈ unassigned, env.vehicleOk v j = true →
        ∀ r, r ≤ route.length → pairFeasible env v route (j, r) = false) ∧
      (∀ c j r, selectBest env v route lam penalty unassigned = some (c, j, r) →
        j ∈ unassigned ∧ env.vehicleOk v j = true ∧ r ≤ route.length ∧
          pairFeasible env v route (j, r) = true ∧
          c = pairCost env v route lam penalty (j, r) ∧
          (∀ j2 ∈ unassigned, env.vehicleOk v j2 = true →
            ∀ r2, r2 ≤ route.length → pairFeasible env v route (j2, r2) = true →
              pairCost env v route lam penalty (j, r) ≤
                pairCost env v route lam penalty (j2, r2)) ∧
          (∃ l₁ l₂,
            candidatePairs route.length (env.vehicleOk v) unassigned =
              l₁ ++ (j, r) :: l₂ ∧
            (∀ p ∈ l₁, pairFeasible env v route p = true →
              pairCost env v route lam penalty (j, r) <
                pairCost env v route lam penalty p))) ∧
      (greedyLoop env v lam penalty route unassigned = (route, unassigned) ↔
        selectBest env v route lam penalty unassigned = none) := by
  obtain ⟨hnone, hsome⟩ := scanFold_spec (pairCost env v route lam penalty)
    (pairFeasible env v route)
    (candidatePairs route.length (env.vehicleOk v) unassigned)
  refine ⟨?_, ?_, ?_⟩
  · rw [show selectBest env v route lam penalty unassigned =
      (candidatePairs route.length (env.vehicleOk v) unassigned).foldl
        (scanStep (pairCost env v route lam penalty)
          (pairFeasible env v route)) none from rfl, hnone]
    constructor
    · intro h j hj hok r hr
      exact h (j, r) (mem_candidatePairs.mpr ⟨hj, hok, by omega⟩)
    · intro h p hp
      obtain ⟨h1, h2, h3⟩ := mem_candidatePairs.mp hp
      exact h p.1 h1 h2 p.2 (by omega)
  · intro c j r hsel
    obtain ⟨hj, hok, hr, hfeas, hcost⟩ :=
      selectBest_some env v route lam penalty unassigned c j r hsel
    obtain ⟨l₁, l₂, hsplit, _, _, hbefore, hafter⟩ := hsome c j r hsel
    refine ⟨hj, hok, hr, hfeas, hcost, ?_, l₁, l₂, hsplit, hbefore⟩
    intro j2 hj2 hok2 r2 hr2 hfeas2
    have hmem2 : (j2, r2) ∈ l₁ ++ (j, r) :: l₂ := by
      rw [← hsplit]
      exact mem_candidatePairs.mpr ⟨hj2, hok2, by omega⟩
    rcases List.mem_append.mp hmem2 with hp | hp
    · exact le_of_lt (hbefore (j2, r2) hp hfeas2)
    · rcases List.mem_cons.mp hp with heq | hp
      · rw [heq]
      · exact hafter (j2, r2) hp hfeas2
  · constructor
    · intro heq
      cases h : selectBest env v route lam penalty unassigned with
      | none => rfl
      | some b =>
        obtain ⟨bc, bj, br⟩ := b
        obtain ⟨hmem, _, hr, _, _⟩ := selectBest_some env v route lam penalty
          unassigned bc bj br (by rw [h])
        have hgrow : route.length + 1 ≤
            (greedyLoop env v lam penalty route unassigned).1.length := by
          have hred : greedyLoop env v lam penalty route unassigned =
              greedyLoop env v lam penalty (route.insertIdx br bj)
                (unassigned.erase bj) := by
            rw [greedyLoop, h]
          rw [hred]
          have hlen2 : (unassigned.erase bj).length ≤
              (unassigned.erase bj).length := le_refl _
          have hins : (route.insertIdx br bj).length = route.length + 1 :=
            List.length_insertIdx br route hr
          have := greedyLoop_length_ge env v lam penalty
            (unassigned.erase bj).length
            (route.insertIdx br bj) (unassigned.erase bj) hlen2
          omega
        rw [heq] at hgrow
        simp at hgrow
    · intro h
      rw [greedyLoop, h]

/-- The init rules of the heuristics (solomon.h). -/
inductive INIT
  | NONE
  | HIGHER_AMOUNT
  | EARLIEST_DEADLINE
  | FURTHEST
  | NEAREST
deriving DecidableEq

/-- Accumulator of the init scan (solomon.cpp lines 80-84): best-so-far
amount, furthest/nearest cost, earliest deadline, candidate job, and
whether a candidate was found. -/
structure InitAcc where
  higherAmount : List Nat
  furthest : Nat
  nearest : Nat
  earliest : Nat
  bestJob : Nat
  initOk : Bool

/-- Initial accumulator values (lines 78-84). -/
def initAcc0 (env : HEnv) : InitAcc where
  higherAmount := env.zeroAmount
  furthest := 0
  nearest := costSentinel
  earliest := durationSentinel
  bestJob := 0
  initOk := false

/-- One candidate of the init scan (lines 85-126): skip infeasible jobs
(`skip` carries the extra closest-vehicle filter of
`dynamic_vehicle_choice`, constantly false in `basic`), then update the
best-so-far under the selected rule. -/
def initStep (env : HEnv) (init : INIT) (v : Nat) (route : List Nat)
    (costOf : Nat → Nat) (skip : Nat → Bool) (acc : InitAcc) (j : Nat) :
    InitAcc :=
  if skip j || !env.vehicleOk v j || !env.validCapacityAdd v route j 0 ||
      !env.validTWAdd v route j 0 then acc
  else
    let acc1 :=
      if init = INIT.HIGHER_AMOUNT ∧
          amountLt acc.higherAmount (env.jobPickup j) = true then
        { acc with higherAmount := env.jobPickup j, bestJob := j, initOk := true }
      else acc
    let acc2 :=
      if init = INIT.HIGHER_AMOUNT ∧
          amountLt acc1.higherAmount (env.jobDelivery j) = true then
        { acc1 with higherAmount := env.jobDelivery j, bestJob := j, initOk := true }
      else acc1
    let acc3 :=
      if init = INIT.EARLIEST_DEADLINE ∧ env.jobDeadline j < acc2.earliest then
        { acc2 with earliest := env.jobDeadline j, bestJob := j, initOk := true }
      else acc2
    let acc4 :=
      if init = INIT.FURTHEST ∧ acc3.furthest < costOf j then
        { acc3 with furthest := costOf j, bestJob := j, initOk := true }
      else acc3
    if init = INIT.NEAREST ∧ costOf j < acc4.nearest then
      { acc4 with nearest := costOf j, bestJob := j, initOk := true }
    else acc4

/-- The init scan over the unassigned set. -/
def runInit (env : HEnv) (init : INIT) (v : Nat) (route : List Nat)
    (costOf : Nat → Nat) (skip : Nat → Bool) (unassigned : List Nat) : InitAcc :=
  unassigned.foldl (initStep env init v route costOf skip) (initAcc0 env)

/-- The init step of one vehicle (lines 76-132): when a rule is selected
and a candidate found, insert it at position 0 and drop it from the
unassigned set. -/
def applyInit (env : HEnv) (init : INIT) (v : Nat) (route : List Nat)
    (costOf : Nat → Nat) (skip : Nat → Bool) (unassigned : List Nat) :
    List Nat × List Nat :=
  if init = INIT.NONE then (route, unassigned)
  else
    let acc := runInit env init v route costOf skip unassigned
    if acc.initOk then
      (route.insertIdx 0 acc.bestJob, unassigned.erase acc.bestJob)
    else (route, unassigned)

/-- Work done for one vehicle: init step then greedy loop, writing the
route back at slot `v`. -/
def vehicleStep (env : HEnv) (init : INIT) (lam : ℚ) (costOf : Nat → Nat)
    (skip : Nat → Bool) (penalty : Nat → Nat) (v : Nat)
    (routes : List (List Nat)) (unassigned : List Nat) :
    List (List Nat) × List Nat :=
  let p1 := applyInit env init v (routes.getD v []) costOf skip unassigned
  let p2 := greedyLoop env v lam penalty p1.1 p1.2
  (routes.set v p2.1, p2.2)

/-- Translation of `heuristics::basic` (solomon.cpp lines 22-181): empty route per
vehicle, all jobs unassigned, vehicles processed in stably sorted order,
per-job costs from vehicle 0, init step then greedy loop per vehicle. -/
def basic (env : HEnv) (init : INIT) (lam : ℚ) : List (List Nat) × List Nat :=
  (basicVehicleOrder env).foldl
    (fun st v => vehicleStep env init lam (jobCost env 0) (fun _ => false)
      (jobCost env 0) v st.1 st.2)
    (List.replicate env.numVehicles [], List.range env.numJobs)

/-- One update of the running (min, second-min) pair (solomon.cpp lines
232-239). -/
def twoMinStep (p : Nat × Nat) (c : Nat) : Nat × Nat :=
  if c ≤ p.1 then (c, p.1) else if c < p.2 then (p.1, c) else p

/-- The (min, second-min) scan starting from the sentinel pair (lines
226-241). -/
def twoMinFold (l : List Nat) : Nat × Nat :=
  l.foldl twoMinStep (costSentinel, costSentinel)

/-- Value `jobs_min_costs[j]` over the remaining vehicles. -/
def jobsMinCosts (env : HEnv) (remaining : List Nat) (j : Nat) : Nat :=
  (twoMinFold (remaining.map (fun v => jobCost env v j))).1

/-- Value `jobs_second_min_costs[j]` over the remaining vehicles. -/
def jobsSecondMinCosts (env : HEnv) (remaining : List Nat) (j : Nat) : Nat :=
  (twoMinFold (remaining.map (fun v => jobCost env v j))).2

/-- Count `closest_jobs_count[v]`: unassigned jobs whose min cost is attained at
`v` (lines 245-252). -/
def closestJobsCount (env : HEnv) (remaining unassigned : List Nat)
    (v : Nat) : Nat :=
  (unassigned.filter
    (fun j => jobCost env v j == jobsMinCosts env remaining j)).length

/-- The vehicle-choice comparator of `dynamic_vehicle_choice` (lines
254-267): more closest jobs first, ties broken like the `basic`
comparator. -/
def dynBefore (env : HEnv) (remaining unassigned : List Nat)
    (lhs rhs : Nat) : Bool :=
  decide (closestJobsCount env remaining unassigned rhs <
      closestJobsCount env remaining unassigned lhs) ||
    (decide (closestJobsCount env remaining unassigned lhs =
        closestJobsCount env remaining unassigned rhs) &&
      vehBefore env lhs rhs)

/-- Model of `std::min_element`: the first element no later element strictly
precedes. -/
def minElement {α : Type} (cmp : α → α → Bool) : List α → Option α
  | [] => none
  | x :: xs => some (xs.foldl (fun best y => if cmp y best then y else best) x)

/-- The vehicle chosen in one iteration of the main loop. -/
def chooseVehicle (env : HEnv) (remaining unassigned : List Nat) : Option Nat :=
  minElement (dynBefore env remaining unassigned) remaining

/-- Value `regrets[j]` once the vehicle is chosen (lines 274-282): the min cost
if some other remaining vehicle is strictly cheaper, else the second-min
cost (the arrays are computed before the chosen vehicle is erased). -/
def regrets (env : HEnv) (remaining : List Nat) (v j : Nat) : Nat :=
  if jobsMinCosts env remaining j < jobCost env v j then
    jobsMinCosts env remaining j
  else jobsSecondMinCosts env remaining j

theorem minElement_mem {α : Type} (cmp : α → α → Bool) :
    ∀ (l : List α) (x : α), minElement cmp l = some x → x ∈ l := by
  have hfold : ∀ (xs : List α) (acc : α),
      xs.foldl (fun best y => if cmp y best then y else best) acc = acc ∨
        xs.foldl (fun best y => if cmp y best then y else best) acc ∈ xs := by
    intro xs
    induction xs with
    | nil => intro acc; exact Or.inl rfl
    | cons y ys ih =>
      intro acc
      simp only [List.foldl_cons]
      by_cases h : cmp y acc = true
      · simp only [h, if_true]
        rcases ih y with h2 | h2
        · exact Or.inr (by rw [h2]; simp)
        · exact Or.inr (List.mem_cons_of_mem y h2)
      · rw [Bool.not_eq_true] at h
        simp only [h, Bool.false_eq_true, if_false]
        rcases ih acc with h2 | h2
        · exact Or.inl h2
        · exact Or.inr (List.mem_cons_of_mem y h2)
  intro l x h
  cases l with
  | nil => cases h
  | cons y ys =>
    simp only [minElement] at h
    injection h with h
    rcases hfold ys y with h2 | h2
    · rw [← h, h2]; simp
    · rw [← h]; exact List.mem_cons_of_mem y h2

/-- The main loop of `dynamic_vehicle_choice` (lines 221-394). -/
def dynLoop (env : HEnv) (init : INIT) (lam : ℚ) (remaining : List Nat)
    (routes : List (List Nat)) (unassigned : List Nat) :
    List (List Nat) × List Nat :=
  if remaining = [] ∨ unassigned = [] then (routes, unassigned)
  else
    match hch : chooseVehicle env remaining unassigned with
    | none => (routes, unassigned)
    | some v =>
      let p := vehicleStep env init lam (fun j => jobCost env v j)
        (fun j => decide (jobsMinCosts env remaining j < jobCost env v j))
        (fun j => regrets env remaining v j) v routes unassigned
      dynLoop env init lam (remaining.erase v) p.1 p.2
termination_by remaining.length
decreasing_by
  have hmem : v ∈ remaining := minElement_mem _ remaining v hch
  have := List.length_erase_of_mem hmem
  have := List.length_pos_of_mem hmem
  omega

/-- Translation of `heuristics::dynamic_vehicle_choice` (solomon.cpp lines 183-397). -/
def dynamicVehicleChoice (env : HEnv) (init : INIT) (lam : ℚ) :
    List (List Nat) × List Nat :=
  dynLoop env init lam (List.range env.numVehicles)
    (List.replicate env.numVehicles []) (List.range env.numJobs)

theorem initStep_cases (env : HEnv) (init : INIT) (v : Nat)
    (route : List Nat) (costOf : Nat → Nat) (skip : Nat → Bool)
    (acc : InitAcc) (j : Nat) :
    initStep env init v route costOf skip acc j = acc ∨
      ((initStep env init v route costOf skip acc j).bestJob = j ∧
        (initStep env init v route costOf skip acc j).initOk = true) := by
  simp only [initStep]
  split
  · exact Or.inl rfl
  · split <;> split <;> split <;> split <;> split <;> simp

theorem runInit_foldl_mem (env : HEnv) (init : INIT) (v : Nat)
    (route : List Nat) (costOf : Nat → Nat) (skip : Nat → Bool) :
    ∀ (u : List Nat) (acc : InitAcc),
      (u.foldl (initStep env init v route costOf skip) acc).initOk = true →
        (u.foldl (initStep env init v route costOf skip) acc).bestJob ∈ u ∨
          ((u.foldl (initStep env init v route costOf skip) acc).bestJob =
              acc.bestJob ∧ acc.initOk = true) := by
  intro u
  induction u with
  | nil => intro acc h; exact Or.inr ⟨rfl, h⟩
  | cons x u ih =>
    intro acc h
    simp only [List.foldl_cons] at h ⊢
    rcases initStep_cases env init v route costOf skip acc x with hst | ⟨hb, ho⟩
    · rw [hst] at h ⊢
      rcases ih acc h with h2 | ⟨h2, h3⟩
      · exact Or.inl (List.mem_cons_of_mem x h2)
      · exact Or.inr ⟨h2, h3⟩
    · rcases ih (initStep env init v route costOf skip acc x) h with h2 | ⟨h2, _⟩
      · exact Or.inl (List.mem_cons_of_mem x h2)
      · exact Or.inl (by rw [h2, hb]; simp)

theorem runInit_mem (env : HEnv) (init : INIT) (v : Nat) (route : List Nat)
    (costOf : Nat → Nat) (skip : Nat → Bool) (unassigned : List Nat)
    (h : (runInit env init v route costOf skip unassigned).initOk = true) :
    (runInit env init v route costOf skip unassigned).bestJob ∈ unassigned := by
  rcases runInit_foldl_mem env init v route costOf skip unassigned
    (initAcc0 env) h with h2 | ⟨_, h3⟩
  · exact h2
  · cases h3

theorem applyInit_perm (env : HEnv) (init : INIT) (v : Nat)
    (route : List Nat) (costOf : Nat → Nat) (skip : Nat → Bool)
    (unassigned : List Nat) :
    ((applyInit env init v route costOf skip unassigned).1 ++
      (applyInit env init v route costOf skip unassigned).2).Perm
      (route ++ unassigned) := by
  simp only [applyInit]
  by_cases h0 : init = INIT.NONE
  · simp [h0]
  · simp only [h0, if_false]
    by_cases h1 : (runInit env init v route costOf skip unassigned).initOk = true
    · simp only [h1, if_true]
      have hmem := runInit_mem env init v route costOf skip unassigned h1
      rw [List.insertIdx_zero]
      refine List.Perm.trans ?_
        (List.Perm.append_left route (List.perm_cons_erase hmem).symm)
      exact List.perm_middle.symm
    · rw [Bool.not_eq_true] at h1
      simp [h1]

theorem flatten_set_perm :
    ∀ (routes : List (List Nat)) (v : Nat) (R : List Nat),
      v < routes.length →
      ((routes.set v R).flatten ++ routes.getD v []).Perm
        (routes.flatten ++ R) := by
  intro routes
  induction routes with
  | nil => intro v R hv; cases hv
  | cons r rest ih =>
    intro v R hv
    cases v with
    | zero =>
      simp only [List.set_cons_zero, List.flatten_cons, List.getD_cons_zero]
      rw [List.perm_iff_count]
      intro x
      simp only [List.count_append]
      omega
    | succ v =>
      simp only [List.set_cons_succ, List.flatten_cons, List.getD_cons_succ]
      have hv2 : v < rest.length := by simpa using hv
      have hperm := ih v R hv2
      rw [List.perm_iff_count] at hperm ⊢
      intro x
      have := hperm x
      simp only [List.count_append] at this ⊢
      omega

theorem vehicleStep_inv (env : HEnv) (init : INIT) (lam : ℚ)
    (costOf : Nat → Nat) (skip : Nat → Bool) (penalty : Nat → Nat) (v : Nat)
    (routes : List (List Nat)) (unassigned : List Nat)
    (hv : v < routes.length) :
    ((vehicleStep env init lam costOf skip penalty v routes unassigned).1.flatten ++
      (vehicleStep env init lam costOf skip penalty v routes unassigned).2).Perm
      (routes.flatten ++ unassigned) ∧
    (vehicleStep env init lam costOf skip penalty v routes unassigned).1.length =
      routes.length := by
  constructor
  · have h1 := applyInit_perm env init v (routes.getD v []) costOf skip unassigned
    have h2 := greedyLoop_perm env v lam penalty
      (applyInit env init v (routes.getD v []) costOf skip unassigned).2.length
      (applyInit env init v (routes.getD v []) costOf skip unassigned).1
      (applyInit env init v (routes.getD v []) costOf skip unassigned).2
      (le_refl _)
    have h3 := flatten_set_perm routes v
      (greedyLoop env v lam penalty
        (applyInit env init v (routes.getD v []) costOf skip unassigned).1
        (applyInit env init v (routes.getD v []) costOf skip unassigned).2).1 hv
    rw [List.perm_iff_count] at h1 h2 h3 ⊢
    intro x
    have e1 := h1 x
    have e2 := h2 x
    have e3 := h3 x
    simp only [List.count_append] at e1 e2 e3 ⊢
    simp only [vehicleStep, List.count_append]
    omega
  · simp [vehicleStep]

theorem basic_foldl_inv (env : HEnv) (init : INIT) (lam : ℚ) :
    ∀ (vs : List Nat) (routes : List (List Nat)) (unassigned : List Nat),
      (∀ v ∈ vs, v < routes.length) →
      ((vs.foldl (fun st v => vehicleStep env init lam (jobCost env 0)
          (fun _ => false) (jobCost env 0) v st.1 st.2)
          (routes, unassigned)).1.flatten ++
        (vs.foldl (fun st v => vehicleStep env init lam (jobCost env 0)
          (fun _ => false) (jobCost env 0) v st.1 st.2)
          (routes, unassigned)).2).Perm (routes.flatten ++ unassigned) ∧
      (vs.foldl (fun st v => vehicleStep env init lam (jobCost env 0)
        (fun _ => false) (jobCost env 0) v st.1 st.2)
        (routes, unassigned)).1.length = routes.length := by
  intro vs
  induction vs with
  | nil => intro routes unassigned _; exact ⟨List.Perm.refl _, rfl⟩
  | cons v vs ih =>
    intro routes unassigned hvs
    have hv : v < routes.length := hvs v (by simp)
    obtain ⟨hperm, hlen⟩ := vehicleStep_inv env init lam (jobCost env 0)
      (fun _ => false) (jobCost env 0) v routes unassigned hv
    simp only [List.foldl_cons]
    have hvs2 : ∀ w ∈ vs, w <
        (vehicleStep env init lam (jobCost env 0) (fun _ => false)
          (jobCost env 0) v routes unassigned).1.length := by
      intro w hw
      rw [hlen]
      exact hvs w (List.mem_cons_of_mem v hw)
    obtain ⟨ihperm, ihlen⟩ := ih
      (vehicleStep env init lam (jobCost env 0) (fun _ => false)
        (jobCost env 0) v routes unassigned).1
      (vehicleStep env init lam (jobCost env 0) (fun _ => false)
        (jobCost env 0) v routes unassigned).2 hvs2
    refine ⟨ihperm.trans hperm, ?_⟩
    rw [ihlen, hlen]

theorem dynLoop_inv (env : HEnv) (init : INIT) (lam : ℚ) :
    ∀ (fuel : Nat) (remaining : List Nat) (routes : List (List Nat))
      (unassigned : List Nat), remaining.length ≤ fuel →
      (∀ v ∈ remaining, v < routes.length) →
      ((dynLoop env init lam remaining routes unassigned).1.flatten ++
        (dynLoop env init lam remaining routes unassigned).2).Perm
        (routes.flatten ++ unassigned) ∧
      (dynLoop env init lam remaining routes unassigned).1.length =
        routes.length := by
  intro fuel
  induction fuel with
  | zero =>
    intro remaining routes unassigned hlen _
    have : remaining = [] := List.length_eq_zero.mp (by omega)
    subst this
    rw [dynLoop, if_pos (Or.inl rfl)]
    exact ⟨List.Perm.refl _, rfl⟩
  | succ fuel ih =>
    intro remaining routes unassigned hlen hrem
    by_cases hc : remaining = [] ∨ unassigned = []
    · rw [dynLoop, if_pos hc]
      exact ⟨List.Perm.refl _, rfl⟩
    · cases hch : chooseVehicle env remaining unassigned with
      | none =>
        have hred : dynLoop env init lam remaining routes unassigned =
            (routes, unassigned) := by
          rw [dynLoop, if_neg hc, hch]
        rw [hred]
        exact ⟨List.Perm.refl _, rfl⟩
      | some v =>
        have hmem : v ∈ remaining := minElement_mem _ remaining v hch
        have hv : v < routes.length := hrem v hmem
        have hred : dynLoop env init lam remaining routes unassigned =
            dynLoop env init lam (remaining.erase v)
              (vehicleStep env init lam (fun j => jobCost env v j)
                (fun j => decide (jobsMinCosts env remaining j < jobCost env v j))
                (fun j => regrets env remaining v j) v routes unassigned).1
              (vehicleStep env init lam (fun j => jobCost env v j)
                (fun j => decide (jobsMinCosts env remaining j < jobCost env v j))
                (fun j => regrets env remaining v j) v routes unassigned).2 := by
          rw [dynLoop, if_neg hc, hch]
        rw [hred]
        obtain ⟨hperm, hlen2⟩ := vehicleStep_inv env init lam
          (fun j => jobCost env v j)
          (fun j => decide (jobsMinCosts env remaining j < jobCost env v j))
          (fun j => regrets env remaining v j) v routes unassigned hv
        have hlen3 : (remaining.erase v).length ≤ fuel := by
          have := List.length_erase_of_mem hmem
          have := List.length_pos_of_mem hmem
          omega
        have hrem2 : ∀ w ∈ remaining.erase v, w <
            (vehicleStep env init lam (fun j => jobCost env v j)
              (fun j => decide (jobsMinCosts env remaining j < jobCost env v j))
              (fun j => regrets env remaining v j) v routes unassigned).1.length := by
          intro w hw
          rw [hlen2]
          exact hrem w (List.mem_of_mem_erase hw)
        obtain ⟨ihperm, ihlen⟩ := ih (remaining.erase v) _ _ hlen3 hrem2
        refine ⟨ihperm.trans hperm, ?_⟩
        rw [ihlen, hlen2]

theorem flatten_replicate_nil :
    ∀ n : Nat, (List.replicate n ([] : List Nat)).flatten = [] := by
  intro n
  induction n with
  | zero => rfl
  | succ n ih => simp [List.replicate_succ, ih]

/-- C8: for every solution returned by `basic` or
`dynamic_vehicle_choice`, the job ranks across all routes together with
the residual unassigned set form a permutation of the full job set
`0..numJobs-1`; in particular the combined list has no duplicates, so each
job appears in at most one route, at most once, and never both assigned
and unassigned. -/
theorem heuristic_solution_partition (env : HEnv) (init : INIT) (lam : ℚ) :
    (((basic env init lam).1.flatten ++ (basic env init lam).2).Perm
        (List.range env.numJobs) ∧
      ((basic env init lam).1.flatten ++ (basic env init lam).2).Nodup) ∧
      (((dynamicVehicleChoice env init lam).1.flatten ++
          (dynamicVehicleChoice env init lam).2).Perm
        (List.range env.numJobs) ∧
      ((dynamicVehicleChoice env init lam).1.flatten ++
        (dynamicVehicleChoice env init lam).2).Nodup) := by
  have hb : ∀ v ∈ basicVehicleOrder env,
      v < (List.replicate env.numVehicles ([] : List Nat)).length := by
    intro v hv
    have := (stableSortModel_perm (vehBefore env)
      (List.range env.numVehicles)).mem_iff.mp hv
    rw [List.length_replicate]
    exact List.mem_range.mp this
  obtain ⟨hperm, _⟩ := basic_foldl_inv env init lam (basicVehicleOrder env)
    (List.replicate env.numVehicles []) (List.range env.numJobs) hb
  rw [flatten_replicate_nil, List.nil_append] at hperm
  have hd : ∀ v ∈ List.range env.numVehicles,
      v < (List.replicate env.numVehicles ([] : List Nat)).length := by
    intro v hv
    rw [List.length_replicate]
    exact List.mem_range.mp hv
  obtain ⟨hperm2, _⟩ := dynLoop_inv env init lam
    (List.range env.numVehicles).length (List.range env.numVehicles)
    (List.replicate env.numVehicles []) (List.range env.numJobs)
    (le_refl _) hd
  rw [flatten_replicate_nil, List.nil_append] at hperm2
  exact ⟨⟨hperm, hperm.symm.nodup (List.nodup_range _)⟩,
    ⟨hperm2, hperm2.symm.nodup (List.nodup_range _)⟩⟩

/-- One vehicle incompatible with the single job: the job stays
unassigned. -/
def envOneJobNoFit : HEnv where
  numVehicles := 1
  numJobs := 1
  capacity := fun _ => [1]
  twLength := fun _ => 0
  hasStart := fun _ => false
  startIdx := fun _ => 0
  hasEnd := fun _ => false
  endIdx := fun _ => 0
  jobIndex := fun _ => 0
  jobPickup := fun _ => [0]
  jobDelivery := fun _ => [0]
  jobDeadline := fun _ => 0
  zeroAmount := [0]
  matrix := fun _ _ => 0
  vehicleOk := fun _ _ => false
  validCapacityAdd := fun _ _ _ _ => true
  validTWAdd := fun _ _ _ _ => true

/-- One vehicle compatible with the single job, everything feasible. -/
def envOneJobFit : HEnv where
  numVehicles := 1
  numJobs := 1
  capacity := fun _ => [1]
  twLength := fun _ => 0
  hasStart := fun _ => false
  startIdx := fun _ => 0
  hasEnd := fun _ => false
  endIdx := fun _ => 0
  jobIndex := fun _ => 0
  jobPickup := fun _ => [0]
  jobDelivery := fun _ => [0]
  jobDeadline := fun _ => 0
  zeroAmount := [0]
  matrix := fun _ _ => 0
  vehicleOk := fun _ _ => true
  validCapacityAdd := fun _ _ _ _ => true
  validTWAdd := fun _ _ _ _ => true

/-- C9: both heuristics are total functions of their input (every greedy
iteration removes one job from the unassigned set, every main-loop
iteration of `dynamic_vehicle_choice` removes one vehicle — these measures
justify the recursions), and they return one route per vehicle together
with the residual unassigned set, which may be non-empty (witnessed by a
vehicle incompatible with the only job). -/
theorem heuristic_termination_shape (env : HEnv) (init : INIT) (lam : ℚ) :
    (basic env init lam).1.length = env.numVehicles ∧
      (dynamicVehicleChoice env init lam).1.length = env.numVehicles ∧
      (basic envOneJobNoFit INIT.NONE 0).2 = [0] := by
  refine ⟨?_, ?_, ?_⟩
  · have hb : ∀ v ∈ basicVehicleOrder env,
        v < (List.replicate env.numVehicles ([] : List Nat)).length := by
      intro v hv
      have := (stableSortModel_perm (vehBefore env)
        (List.range env.numVehicles)).mem_iff.mp hv
      rw [List.length_replicate]
      exact List.mem_range.mp this
    obtain ⟨_, hlen⟩ := basic_foldl_inv env init lam (basicVehicleOrder env)
      (List.replicate env.numVehicles []) (List.range env.numJobs) hb
    rw [basic, hlen, List.length_replicate]
  · have hd : ∀ v ∈ List.range env.numVehicles,
        v < (List.replicate env.numVehicles ([] : List Nat)).length := by
      intro v hv
      rw [List.length_replicate]
      exact List.mem_range.mp hv
    obtain ⟨_, hlen⟩ := dynLoop_inv env init lam
      (List.range env.numVehicles).length (List.range env.numVehicles)
      (List.replicate env.numVehicles []) (List.range env.numJobs)
      (le_refl _) hd
    rw [dynamicVehicleChoice, hlen, List.length_replicate]
  · have hsel : selectBest envOneJobNoFit 0 [] 0 (jobCost envOneJobNoFit 0)
        [0] = none := by decide
    have hloop : greedyLoop envOneJobNoFit 0 0 (jobCost envOneJobNoFit 0)
        [] [0] = ([], [0]) := by
      rw [greedyLoop, hsel]
    have horder : basicVehicleOrder envOneJobNoFit = [0] := by decide
    rw [basic, horder]
    simp only [List.foldl_cons, List.foldl_nil]
    show (greedyLoop envOneJobNoFit 0 0 (jobCost envOneJobNoFit 0) [] [0]).2 = [0]
    rw [hloop]

/-- C6 witness: the selection theorem applied to a one-job instance where
the scan returns `some (0, 0, 0)`. -/
theorem greedy_insertion_minimizes_witness :
    (0 : Nat) ∈ ([0] : List Nat) ∧
      pairFeasible envOneJobFit 0 [] (0, 0) = true := by
  have hadd : additionCost envOneJobFit 0 0 [] 0 = 0 := by decide
  have hcost : pairCost envOneJobFit 0 [] 0 (jobCost envOneJobFit 0) (0, 0) = 0 := by
    simp [pairCost, hadd]
  have hfeas : pairFeasible envOneJobFit 0 [] (0, 0) = true := by decide
  have hsel : selectBest envOneJobFit 0 [] 0 (jobCost envOneJobFit 0) [0] =
      some (0, 0, 0) := by
    rw [selectBest,
      show candidatePairs ([] : List Nat).length (envOneJobFit.vehicleOk 0) [0] =
        [(0, 0)] from by decide]
    simp only [List.foldl_cons, List.foldl_nil, scanStep, hfeas, if_true, hcost]
  have h := (greedy_insertion_minimizes envOneJobFit 0 [] 0
    (jobCost envOneJobFit 0) [0]).2.1 0 0 0 hsel
  exact ⟨h.1, h.2.2.2.1⟩

/-- Ascending sort of a cost list, the reference for "min" and "second
min". -/
def sortedCosts (l : List Nat) : List Nat :=
  List.insertionSort (fun x y => x ≤ y) l

theorem sortedCosts_congr {X Y : List Nat} (h : X.Perm Y) :
    sortedCosts X = sortedCosts Y :=
  List.eq_of_perm_of_sorted
    ((List.perm_insertionSort _ X).trans (h.trans
      (List.perm_insertionSort _ Y).symm))
    (List.sorted_insertionSort _ X) (List.sorted_insertionSort _ Y)

theorem sortedCosts_length (X : List Nat) :
    (sortedCosts X).length = X.length :=
  (List.perm_insertionSort _ X).length_eq

/-- Inserting an element dominating the two smallest entries of a sorted
list does not change them. -/
theorem firstTwo_orderedInsert (s0 s1 : Nat) (rest : List Nat)
    (hs : (s0 :: s1 :: rest).Sorted (fun x y => x ≤ y)) (b : Nat)
    (h0 : s0 ≤ b) (h1 : s1 ≤ b) :
    (List.orderedInsert (fun x y => x ≤ y) b (s0 :: s1 :: rest)).getD 0 0 = s0 ∧
      (List.orderedInsert (fun x y => x ≤ y) b (s0 :: s1 :: rest)).getD 1 0 = s1 := by
  have h01 : s0 ≤ s1 := List.rel_of_sorted_cons hs s1 (by simp)
  simp only [List.orderedInsert]
  by_cases hb0 : b ≤ s0
  · have hb0e : b = s0 := Nat.le_antisymm hb0 h0
    have h1e : s1 = s0 := Nat.le_antisymm (h1.trans hb0) h01
    simp [hb0, hb0e, h1e]
  · simp only [hb0, if_false]
    by_cases hb1 : b ≤ s1
    · have hb1e : b = s1 := Nat.le_antisymm hb1 h1
      simp [hb1, hb1e]
    · simp [hb1]

/-- The two smallest entries of the sorted multiset `{x, y} ∪ l` are
bounded by `x` and `max x y`. -/
theorem sortedCosts_firstTwo_le (x y : Nat) (l : List Nat) :
    (sortedCosts (x :: y :: l)).getD 0 0 ≤ x ∧
      (sortedCosts (x :: y :: l)).getD 1 0 ≤ max x y := by
  have hp : (sortedCosts (x :: y :: l)).Perm (x :: y :: l) :=
    List.perm_insertionSort _ _
  have hs : (sortedCosts (x :: y :: l)).Sorted (fun a b => a ≤ b) :=
    List.sorted_insertionSort _ _
  have hlen : (sortedCosts (x :: y :: l)).length = l.length + 2 := by
    rw [hp.length_eq]; simp
  cases hsrt : sortedCosts (x :: y :: l) with
  | nil => rw [hsrt] at hlen; simp at hlen
  | cons s0 tail =>
    cases tail with
    | nil => rw [hsrt] at hlen; simp at hlen
    | cons s1 rest =>
      rw [hsrt] at hp hs
      have hmemx : x ∈ s0 :: s1 :: rest := hp.mem_iff.mpr (by simp)
      have hhead : ∀ z ∈ s0 :: s1 :: rest, s0 ≤ z := by
        intro z hz
        rcases List.mem_cons.mp hz with rfl | hz
        · exact le_refl z
        · exact List.rel_of_sorted_cons hs z hz
      constructor
      · exact hhead x hmemx
      · by_contra hgt
        push_neg at hgt
        simp only [List.getD_cons_succ, List.getD_cons_zero] at hgt
        have htail : (s1 :: rest).Sorted (fun a b => a ≤ b) :=
          (List.sorted_cons.mp hs).2
        have hnone : ∀ z ∈ s1 :: rest, ¬ (z ≤ max x y) := by
          intro z hz
          have hz1 : s1 ≤ z := by
            rcases List.mem_cons.mp hz with rfl | hz
            · exact le_refl z
            · exact List.rel_of_sorted_cons htail z hz
          omega
        have hflen := (hp.filter (fun z => decide (z ≤ max x y))).length_eq
        have hleft : ((s0 :: s1 :: rest).filter
            (fun z => decide (z ≤ max x y))).length ≤ 1 := by
          have : (s1 :: rest).filter (fun z => decide (z ≤ max x y)) = [] :=
            List.filter_eq_nil_iff.mpr (by
              intro z hz
              simp only [decide_eq_true_eq]
              exact hnone z hz)
          rw [List.filter_cons]
          split
          · rw [List.length_cons, this]; simp
          · rw [this]; simp
        have hright : 2 ≤ ((x :: y :: l).filter
            (fun z => decide (z ≤ max x y))).length := by
          rw [List.filter_cons, List.filter_cons]
          have hx : decide (x ≤ max x y) = true := by
            simp [le_max_left]
          have hy : decide (y ≤ max x y) = true := by
            simp [le_max_right]
          simp [hx, hy]
        omega

/-- The (min, second-min) scan computes the two smallest entries of the
processed multiset together with the accumulator pair. -/
theorem twoMinFold_sorted :
    ∀ (l : List Nat) (a b : Nat), a ≤ b →
      l.foldl twoMinStep (a, b) =
        ((sortedCosts (a :: b :: l)).getD 0 0,
          (sortedCosts (a :: b :: l)).getD 1 0) := by
  intro l
  induction l with
  | nil =>
    intro a b hab
    have : sortedCosts (a :: b :: []) = [a, b] := by
      simp [sortedCosts, List.insertionSort, List.orderedInsert, hab]
    rw [this]
    rfl
  | cons c l ih =>
    intro a b hab
    rw [List.foldl_cons]
    have hsortCons : ∀ d X, (sortedCosts (d :: X)) =
        List.orderedInsert (fun x y => x ≤ y) d (sortedCosts X) := by
      intro d X; rfl
    by_cases h1 : c ≤ a
    · have hstep : twoMinStep (a, b) c = (c, a) := by
        simp [twoMinStep, h1]
      rw [hstep, ih c a h1]
      have hperm2 : sortedCosts (a :: b :: c :: l) =
          List.orderedInsert (fun x y => x ≤ y) b (sortedCosts (c :: a :: l)) := by
        rw [← hsortCons]
        apply sortedCosts_congr
        refine (List.Perm.swap b a (c :: l)).trans ?_
        exact List.Perm.cons b (List.Perm.swap c a l)
      rw [hperm2]
      obtain ⟨hb0, hb1⟩ := sortedCosts_firstTwo_le c a l
      have hlen : (sortedCosts (c :: a :: l)).length = l.length + 2 := by
        rw [sortedCosts_length]; simp
      cases hsrt : sortedCosts (c :: a :: l) with
      | nil => rw [hsrt] at hlen; simp at hlen
      | cons s0 tail =>
        cases tail with
        | nil => rw [hsrt] at hlen; simp at hlen
        | cons s1 rest =>
          rw [hsrt] at hb0 hb1
          have hsorted : (s0 :: s1 :: rest).Sorted (fun x y => x ≤ y) := by
            rw [← hsrt]; exact List.sorted_insertionSort _ _
          obtain ⟨e0, e1⟩ := firstTwo_orderedInsert s0 s1 rest hsorted b
            (by simp only [List.getD_cons_zero] at hb0; omega)
            (by simp only [List.getD_cons_succ, List.getD_cons_zero] at hb1
                have : max c a = a := Nat.max_eq_right h1
                omega)
          rw [e0, e1]
          simp
    · by_cases h2 : c < b
      · have hstep : twoMinStep (a, b) c = (a, c) := by
          simp only [twoMinStep]
          rw [if_neg (by omega), if_pos h2]
        have hac : a ≤ c := by omega
        rw [hstep, ih a c hac]
        have hperm2 : sortedCosts (a :: b :: c :: l) =
            List.orderedInsert (fun x y => x ≤ y) b (sortedCosts (a :: c :: l)) := by
          rw [← hsortCons]
          apply sortedCosts_congr
          exact List.Perm.swap b a (c :: l)
        rw [hperm2]
        obtain ⟨hb0, hb1⟩ := sortedCosts_firstTwo_le a c l
        have hlen : (sortedCosts (a :: c :: l)).length = l.length + 2 := by
          rw [sortedCosts_length]; simp
        cases hsrt : sortedCosts (a :: c :: l) with
        | nil => rw [hsrt] at hlen; simp at hlen
        | cons s0 tail =>
          cases tail with
          | nil => rw [hsrt] at hlen; simp at hlen
          | cons s1 rest =>
            rw [hsrt] at hb0 hb1
            have hsorted : (s0 :: s1 :: rest).Sorted (fun x y => x ≤ y) := by
              rw [← hsrt]; exact List.sorted_insertionSort _ _
            obtain ⟨e0, e1⟩ := firstTwo_orderedInsert s0 s1 rest hsorted b
              (by simp only [List.getD_cons_zero] at hb0; omega)
              (by simp only [List.getD_cons_succ, List.getD_cons_zero] at hb1
                  have : max a c = c := Nat.max_eq_right hac
                  omega)
            rw [e0, e1]
            simp
      · have hstep : twoMinStep (a, b) c = (a, b) := by
          simp only [twoMinStep]
          rw [if_neg (by omega), if_neg (by omega)]
        rw [hstep, ih a b hab]
        have hperm2 : sortedCosts (a :: b :: c :: l) =
            List.orderedInsert (fun x y => x ≤ y) c (sortedCosts (a :: b :: l)) := by
          rw [← hsortCons]
          apply sortedCosts_congr
          refine (List.Perm.cons a (List.Perm.swap c b l)).trans ?_
          exact List.Perm.swap c a (b :: l)
        rw [hperm2]
        obtain ⟨hb0, hb1⟩ := sortedCosts_firstTwo_le a b l
        have hlen : (sortedCosts (a :: b :: l)).length = l.length + 2 := by
          rw [sortedCosts_length]; simp
        cases hsrt : sortedCosts (a :: b :: l) with
        | nil => rw [hsrt] at hlen; simp at hlen
        | cons s0 tail =>
          cases tail with
          | nil => rw [hsrt] at hlen; simp at hlen
          | cons s1 rest =>
            rw [hsrt] at hb0 hb1
            have hsorted : (s0 :: s1 :: rest).Sorted (fun x y => x ≤ y) := by
              rw [← hsrt]; exact List.sorted_insertionSort _ _
            obtain ⟨e0, e1⟩ := firstTwo_orderedInsert s0 s1 rest hsorted c
              (by simp only [List.getD_cons_zero] at hb0; omega)
              (by simp only [List.getD_cons_succ, List.getD_cons_zero] at hb1
                  have : max a b = b := Nat.max_eq_right hab
                  omega)
            rw [e0, e1]
            simp

theorem twoMinFold_spec (l : List Nat)
    (hl : ∀ x ∈ l, x < costSentinel) :
    twoMinFold l = ((sortedCosts l).getD 0 costSentinel,
      (sortedCosts l).getD 1 costSentinel) := by
  rw [twoMinFold, twoMinFold_sorted l costSentinel costSentinel (le_refl _)]
  have hperm : sortedCosts (costSentinel :: costSentinel :: l) =
      sortedCosts l ++ [costSentinel, costSentinel] := by
    refine @List.eq_of_perm_of_sorted Nat (fun x y => x ≤ y) inferInstance
      _ _ ?_ ?_ ?_
    · refine (List.perm_insertionSort _ _).trans ?_
      have h1 : (costSentinel :: costSentinel :: l).Perm
          (l ++ [costSentinel, costSentinel]) := by
        have : costSentinel :: costSentinel :: l =
            [costSentinel, costSentinel] ++ l := rfl
        rw [this]
        exact List.perm_append_comm
      refine h1.trans ?_
      exact (List.perm_insertionSort _ l).symm.append_right _
    · exact List.sorted_insertionSort _ _
    · refine List.pairwise_append.mpr
        ⟨List.sorted_insertionSort _ _, by simp [List.pairwise_cons], ?_⟩
      intro x hx y hy
      have hxl : x ∈ l := (List.perm_insertionSort _ l).mem_iff.mp hx
      have := hl x hxl
      have hyv : y = costSentinel := by
        rcases List.mem_cons.mp hy with rfl | hy
        · rfl
        · simpa using hy
      omega
  rw [hperm]
  cases sortedCosts l with
  | nil => simp
  | cons s0 tail =>
    cases tail with
    | nil => simp
    | cons s1 rest => simp

theorem twoMinFold_fst_le :
    ∀ (l : List Nat) (a b : Nat),
      (l.foldl twoMinStep (a, b)).1 ≤ a ∧
        ∀ x ∈ l, (l.foldl twoMinStep (a, b)).1 ≤ x := by
  intro l
  induction l with
  | nil => intro a b; exact ⟨le_refl a, by simp⟩
  | cons c l ih =>
    intro a b
    rw [List.foldl_cons]
    rcases hs2 : twoMinStep (a, b) c with ⟨a2, b2⟩
    have h2a : a2 ≤ a ∧ a2 ≤ c := by
      have hfst := congrArg (fun p => p.1) hs2
      simp only [twoMinStep] at hfst
      split_ifs at hfst <;> simp at hfst <;> omega
    obtain ⟨ih1, ih2⟩ := ih a2 b2
    refine ⟨ih1.trans h2a.1, ?_⟩
    intro x hx
    rcases List.mem_cons.mp hx with rfl | hx
    · exact ih1.trans h2a.2
    · exact ih2 x hx

/-- Two vehicles with start depots at locations 1 and 2 and a single job
at location 0: empty-route costs 1 and 5. -/
def envTwoVehicles : HEnv where
  numVehicles := 2
  numJobs := 1
  capacity := fun _ => [1]
  twLength := fun _ => 0
  hasStart := fun _ => true
  startIdx := fun v => if v = 0 then 1 else 2
  hasEnd := fun _ => false
  endIdx := fun _ => 0
  jobIndex := fun _ => 0
  jobPickup := fun _ => [0]
  jobDelivery := fun _ => [0]
  jobDeadline := fun _ => 0
  zeroAmount := [0]
  matrix := fun i _ => if i = 1 then 1 else if i = 2 then 5 else 0
  vehicleOk := fun _ _ => true
  validCapacityAdd := fun _ _ _ _ => true
  validTWAdd := fun _ _ _ _ => true

/-- C2 counterexample: with remaining vehicles `[0, 1]` of empty-route
costs 1 and 5 for job 0, the main loop chooses vehicle 0, which is
strictly best for the job, yet the code sets
`regret = second_min_cost = 5`, not `min_cost = 1` as the claim states. -/
theorem dynamic_regret_counterexample :
    chooseVehicle envTwoVehicles [0, 1] [0] = some 0 ∧
      (∀ u ∈ ([0, 1] : List Nat), u ≠ 0 →
        jobCost envTwoVehicles 0 0 < jobCost envTwoVehicles u 0) ∧
      jobsMinCosts envTwoVehicles [0, 1] 0 = 1 ∧
      jobsSecondMinCosts envTwoVehicles [0, 1] 0 = 5 ∧
      regrets envTwoVehicles [0, 1] 0 0 = 5 ∧
      regrets envTwoVehicles [0, 1] 0 0 ≠ jobsMinCosts envTwoVehicles [0, 1] 0 := by
  refine ⟨by decide, by decide, by decide, by decide, by decide, by decide⟩

/-- C2 amended: after the vehicle `v` is chosen, for every unassigned job
`j`: `min_cost[j]` is the minimum and `second_min_cost[j]` the second
smallest (ties counted) of the empty-route costs over the remaining
vehicles (the entries of the sorted cost list at positions 0 and 1, with
the sentinel default); if some *other* remaining vehicle is strictly
cheaper for `j` than `v` then `regret[j] = min_cost[j]`, and if `v`
attains the minimum (in particular when it is strictly best) then
`regret[j] = second_min_cost[j]`; a job whose only remaining vehicle is
the chosen one keeps the sentinel maximum. -/
theorem dynamic_regret_amended (env : HEnv) (remaining : List Nat)
    (v j : Nat) (hv : v ∈ remaining)
    (hb : ∀ u ∈ remaining, jobCost env u j < costSentinel) :
    (∀ u ∈ remaining, jobsMinCosts env remaining j ≤ jobCost env u j) ∧
      jobsMinCosts env remaining j =
        (sortedCosts (remaining.map (fun u => jobCost env u j))).getD 0
          costSentinel ∧
      jobsSecondMinCosts env remaining j =
        (sortedCosts (remaining.map (fun u => jobCost env u j))).getD 1
          costSentinel ∧
      ((∃ u ∈ remaining, jobCost env u j < jobCost env v j) →
        regrets env remaining v j = jobsMinCosts env remaining j) ∧
      ((∀ u ∈ remaining, jobCost env v j ≤ jobCost env u j) →
        regrets env remaining v j = jobsSecondMinCosts env remaining j) ∧
      (remaining = [v] →
        regrets env remaining v j = costSentinel) := by
  have hlb : ∀ x ∈ remaining.map (fun u => jobCost env u j), x < costSentinel := by
    intro x hx
    obtain ⟨u, hu, rfl⟩ := List.mem_map.mp hx
    exact hb u hu
  have hspec := twoMinFold_spec (remaining.map (fun u => jobCost env u j)) hlb
  have hminle : ∀ u ∈ remaining, jobsMinCosts env remaining j ≤ jobCost env u j := by
    intro u hu
    have := (twoMinFold_fst_le (remaining.map (fun w => jobCost env w j))
      costSentinel costSentinel).2 (jobCost env u j)
      (List.mem_map.mpr ⟨u, hu, rfl⟩)
    exact this
  refine ⟨hminle, ?_, ?_, ?_, ?_, ?_⟩
  · rw [jobsMinCosts, hspec]
  · rw [jobsSecondMinCosts, hspec]
  · intro ⟨u, hu, hlt⟩
    have h1 : jobsMinCosts env remaining j < jobCost env v j :=
      lt_of_le_of_lt (hminle u hu) hlt
    rw [regrets, if_pos h1]
  · intro hall
    have hne : remaining.map (fun u => jobCost env u j) ≠ [] := by
      intro hnil
      rw [List.map_eq_nil_iff] at hnil
      rw [hnil] at hv
      cases hv
    have hmem : jobsMinCosts env remaining j ∈
        remaining.map (fun u => jobCost env u j) := by
      rw [jobsMinCosts, hspec]
      cases hsrt : sortedCosts (remaining.map (fun u => jobCost env u j)) with
      | nil =>
        have := sortedCosts_length (remaining.map (fun u => jobCost env u j))
        rw [hsrt] at this
        exact absurd (List.length_eq_zero.mp this.symm) hne
      | cons s0 tail =>
        have : s0 ∈ sortedCosts (remaining.map (fun u => jobCost env u j)) := by
          rw [hsrt]; simp
        have hm := (List.perm_insertionSort _ _).mem_iff.mp this
        simpa using hm
    obtain ⟨u0, hu0, he0⟩ := List.mem_map.mp hmem
    have hvle : jobCost env v j ≤ jobsMinCosts env remaining j := by
      rw [← he0]; exact hall u0 hu0
    rw [regrets, if_neg (by omega)]
  · intro hrem
    subst hrem
    have hvlt := hb v (by simp)
    have hle : jobCost env v j ≤ costSentinel := le_of_lt hvlt
    have hone : twoMinFold ([v].map (fun u => jobCost env u j)) =
        (jobCost env v j, costSentinel) := by
      simp only [List.map_cons, List.map_nil, twoMinFold, List.foldl_cons,
        List.foldl_nil, twoMinStep]
      rw [if_pos hle]
    rw [regrets, jobsMinCosts, jobsSecondMinCosts, hone]
    simp

/-- C2 witness: the amended regret characterisation evaluated on the
two-vehicle instance, chosen vehicle 0. -/
theorem dynamic_regret_amended_witness :
    regrets envTwoVehicles [0, 1] 0 0 =
      jobsSecondMinCosts envTwoVehicles [0, 1] 0 :=
  (dynamic_regret_amended envTwoVehicles [0, 1] 0 0 (by decide)
    (by decide)).2.2.2.2.1 (by decide)

end Vroom
